import Mathlib

/-!
A shallow embedding of the llamagraph graph-construction and query subsystem:
the `Entity`/`Relation` data model (`llamagraph/extractor/entity_extractor.py`,
`llamagraph/extractor/relation_extractor.py`), the knowledge-graph store
(`llamagraph/graph/knowledge_graph.py`), the LRU cache
(`llamagraph/utils/cache.py`) and the query engine
(`llamagraph/graph/query_engine.py`).

Python strings are modelled as lists of characters (`Str`), Python sets as
`Finset Str`, Python dicts as insertion-ordered association lists, and the
NetworkX directed graph as an explicit node list plus edge list (at most one
attribute record per ordered pair, as in `nx.DiGraph`).
-/

/-- Python strings, modelled as lists of characters. -/
abbrev Str : Type := List Char

/-- Conversion from Lean string literals to the `Str` model. -/
def str (s : String) : Str := s.toList

namespace Llamagraph

/-- `Entity` from `entity_extractor.py`: `text` is both the canonical key
(the dict key / graph node identifier) and the display text; `mentions` is a
Python set of surface forms.  `start`/`stop` model the character offsets
(`start`/`end` in the source). -/
structure Entity where
  text : Str
  entity_type : Str
  start : Nat
  stop : Nat
  occurrences : Nat
  mentions : Finset Str
deriving DecidableEq

/-- `Entity.__init__(text, entity_type, start, end)`: occurrences start at 1,
mentions start as `{text}`. -/
def Entity.mk0 (text entity_type : Str) (start stop : Nat) : Entity :=
  { text := text, entity_type := entity_type, start := start, stop := stop,
    occurrences := 1, mentions := {text} }

/-- `Entity.update(self, other)`: `self.occurrences += other.occurrences;
self.mentions.update(other.mentions)`. -/
def Entity.update (self other : Entity) : Entity :=
  { self with occurrences := self.occurrences + other.occurrences,
              mentions := self.mentions ∪ other.mentions }

/-- `Relation` from `relation_extractor.py`: holds references to its endpoint
entities plus the relation label and supporting sentence. -/
structure Relation where
  source : Entity
  target : Entity
  relation_type : Str
  sentence : Str
deriving DecidableEq

/-- One directed edge of the NetworkX `DiGraph`, with its attribute record
(`relation_type`, `sentence`) as set by `KnowledgeGraph.add_relation`. -/
structure Edge where
  source : Str
  target : Str
  relation_type : Str
  sentence : Str
deriving DecidableEq

/-- `KnowledgeGraph.__init__`: `entities` is the insertion-ordered dict
`text -> Entity` (modelled as a list, looked up by first matching text),
`relations` the relation list, and `nodes`/`edges` the NetworkX digraph.
Node attributes (set from `entity.to_dict()`) mirror the `entities` dict and
are never read by the modelled operations, so they are not duplicated here. -/
structure KnowledgeGraph where
  entities : List Entity
  relations : List Relation
  nodes : List Str
  edges : List Edge

def KnowledgeGraph.empty : KnowledgeGraph :=
  { entities := [], relations := [], nodes := [], edges := [] }

/-- `nx.DiGraph.add_node`: adds the node if not already present (re-adding an
existing node only refreshes its attributes). -/
def addNode (ns : List Str) (t : Str) : List Str :=
  if t ∈ ns then ns else ns ++ [t]

/-- `KnowledgeGraph.add_entity`: insert if the text key is unseen, otherwise
merge into the stored entity via `Entity.update`. -/
def KnowledgeGraph.add_entity (g : KnowledgeGraph) (e : Entity) : KnowledgeGraph :=
  if g.entities.any (fun x => x.text = e.text) then
    { g with entities := g.entities.map (fun x => if x.text = e.text then x.update e else x) }
  else
    { g with entities := g.entities ++ [e], nodes := addNode g.nodes e.text }

/-- `nx.DiGraph.add_edge`: upserts the attribute record of the ordered pair
(keeping its position if present) and ensures both endpoint nodes exist. -/
def addEdge (g : KnowledgeGraph) (e : Edge) : KnowledgeGraph :=
  { g with
    nodes := addNode (addNode g.nodes e.source) e.target,
    edges :=
      if g.edges.any (fun x => x.source = e.source ∧ x.target = e.target) then
        g.edges.map (fun x => if x.source = e.source ∧ x.target = e.target then e else x)
      else
        g.edges ++ [e] }

/-- `KnowledgeGraph.add_relation`: append to the relation list and upsert the
directed edge carrying `relation_type` and `sentence`. -/
def KnowledgeGraph.add_relation (g : KnowledgeGraph) (r : Relation) : KnowledgeGraph :=
  addEdge { g with relations := g.relations ++ [r] }
    { source := r.source.text, target := r.target.text,
      relation_type := r.relation_type, sentence := r.sentence }

/-- `KnowledgeGraph.get_entity`: `self.entities.get(entity_text)`. -/
def KnowledgeGraph.get_entity (g : KnowledgeGraph) (k : Str) : Option Entity :=
  g.entities.find? (fun x => x.text = k)

/-- Direction tag of a `get_relations` entry. -/
inductive Direction where
  | outgoing
  | incoming
deriving DecidableEq

/-- One entry of the `KnowledgeGraph.get_relations` result. -/
structure RelEntry where
  direction : Direction
  relation_type : Str
  entity : Str
  sentence : Str
deriving DecidableEq

/-- `KnowledgeGraph.get_relations`: empty if the entity is unknown, otherwise
the outgoing edges followed by the incoming edges, each with its attributes. -/
def KnowledgeGraph.get_relations (g : KnowledgeGraph) (k : Str) : List RelEntry :=
  match g.get_entity k with
  | none => []
  | some ent =>
      ((g.edges.filter (fun e => e.source = ent.text)).map
        (fun e => { direction := Direction.outgoing, relation_type := e.relation_type,
                    entity := e.target, sentence := e.sentence })) ++
      ((g.edges.filter (fun e => e.target = ent.text)).map
        (fun e => { direction := Direction.incoming, relation_type := e.relation_type,
                    entity := e.source, sentence := e.sentence }))

end Llamagraph

namespace Llamagraph

/-! ### Shortest paths (`KnowledgeGraph.get_path`)

`get_path` calls `nx.shortest_path(self.graph, source, target)`, an unweighted
breadth-first shortest path returning the vertex list, raising `NodeNotFound`
when an endpoint is missing and `NetworkXNoPath` when no route exists (both
caught, yielding `[]`).  The embedding computes the least number of edges via
breadth-first reachability layers and extracts one witnessing vertex list. -/

/-- The edge relation of the digraph. -/
def hasEdge (g : KnowledgeGraph) (u v : Str) : Prop :=
  ∃ e ∈ g.edges, e.source = u ∧ e.target = v

instance (g : KnowledgeGraph) (u v : Str) : Decidable (hasEdge g u v) := by
  unfold hasEdge; infer_instance

/-- Every edge endpoint is a node — an invariant NetworkX maintains
(`add_edge` inserts missing endpoints), as does `addEdge` above. -/
def WellFormed (g : KnowledgeGraph) : Prop :=
  ∀ e ∈ g.edges, e.source ∈ g.nodes ∧ e.target ∈ g.nodes

instance (g : KnowledgeGraph) : Decidable (WellFormed g) := by
  unfold WellFormed; infer_instance

/-- Vertices reachable from `s` by walks of at most `n` edges. -/
def reach (g : KnowledgeGraph) (s : Str) : Nat → List Str
  | 0 => [s]
  | n+1 =>
      ((reach g s n) ++
        (g.edges.filter (fun e => e.source ∈ reach g s n)).map Edge.target).dedup

/-- There is a directed walk from `s` to `v` with exactly `n` edges. -/
inductive WalkTo (g : KnowledgeGraph) (s : Str) : Str → Nat → Prop
  | base : WalkTo g s s 0
  | step {u v : Str} {n : Nat} : WalkTo g s u n → hasEdge g u v → WalkTo g s v (n+1)

/-- The vertex list `p` is a directed walk from `s` to `t`. -/
def WalkFrom (g : KnowledgeGraph) (p : List Str) (s t : Str) : Prop :=
  p.head? = some s ∧ p.getLast? = some t ∧ List.Chain' (hasEdge g) p

theorem walkFrom_singleton (g : KnowledgeGraph) (s : Str) : WalkFrom g [s] s s :=
  ⟨rfl, rfl, List.chain'_singleton s⟩

theorem WalkFrom.ne_nil {g p s t} (h : WalkFrom g p s t) : p ≠ [] := by
  rintro rfl; simp [WalkFrom] at h

theorem WalkFrom.append_edge {g p s u v} (h : WalkFrom g p s u) (he : hasEdge g u v) :
    WalkFrom g (p ++ [v]) s v := by
  obtain ⟨h1, h2, h3⟩ := h
  refine ⟨?_, ?_, ?_⟩
  · rw [List.head?_append_of_ne_nil _ (by rintro rfl; simp at h1)]; exact h1
  · rw [List.getLast?_append_of_ne_nil _ (by simp)]; rfl
  · refine List.Chain'.append h3 (List.chain'_singleton v) ?_
    intro x hx y hy
    simp only [List.head?_cons, Option.mem_def, Option.some_inj] at hy
    rw [h2] at hx
    simp only [Option.mem_def, Option.some_inj] at hx
    subst hx; subst hy; exact he

theorem walkTo_of_walkFrom {g p s t} (h : WalkFrom g p s t) :
    WalkTo g s t (p.length - 1) := by
  induction p using List.reverseRecOn generalizing t with
  | nil => exact absurd rfl h.ne_nil
  | append_singleton q a ih =>
      obtain ⟨h1, h2, h3⟩ := h
      rw [List.getLast?_append_of_ne_nil _ (by simp : [a] ≠ ([] : List Str))] at h2
      simp only [List.getLast?_singleton, Option.some_inj] at h2
      subst h2
      by_cases hq : q = []
      · subst hq
        simp only [List.nil_append, List.head?_cons, Option.some_inj] at h1
        subst h1
        simpa using WalkTo.base
      · obtain ⟨u, hu⟩ : ∃ u, q.getLast? = some u := by
          cases hgl : q.getLast? with
          | none => exact absurd (List.getLast?_eq_none_iff.mp hgl) hq
          | some u => exact ⟨u, rfl⟩
        have hwq : WalkFrom g q s u := by
          refine ⟨?_, hu, h3.left_of_append⟩
          rw [List.head?_append_of_ne_nil _ hq] at h1; exact h1
        have hedge : hasEdge g u a := by
          have hlink := (List.chain'_append.mp h3).2.2
          exact hlink u (by rw [hu]; rfl) a rfl
        have hstep := (ih hwq).step hedge
        have hql : 1 ≤ q.length := by
          cases q with
          | nil => exact absurd rfl hq
          | cons x xs => simp
        have harith : q.length - 1 + 1 = (q ++ [a]).length - 1 := by
          simp [Nat.sub_add_cancel hql]
        rwa [harith] at hstep

theorem walkFrom_of_walkTo {g s t n} (h : WalkTo g s t n) :
    ∃ p, WalkFrom g p s t ∧ p.length = n + 1 := by
  induction h with
  | base => exact ⟨[s], walkFrom_singleton g s, rfl⟩
  | step _ he ih =>
      obtain ⟨p, hp, hl⟩ := ih
      exact ⟨p ++ [_], hp.append_edge he, by simp [hl]⟩


theorem reach_subset_succ {g s n} : reach g s n ⊆ reach g s (n+1) := by
  intro v hv
  simp only [reach, List.mem_dedup]
  exact List.mem_append_left _ hv

theorem reach_subset_of_le {g s} {m n : Nat} (h : m ≤ n) : reach g s m ⊆ reach g s n := by
  induction n with
  | zero => cases Nat.le_zero.mp h; exact fun v hv => hv
  | succ n ih =>
      rcases Nat.lt_or_ge m (n+1) with hlt | hge
      · exact fun v hv => reach_subset_succ (ih (Nat.lt_succ_iff.mp hlt) hv)
      · have : m = n + 1 := Nat.le_antisymm h hge
        subst this; exact fun v hv => hv

theorem mem_reach_iff {g s v} {n : Nat} :
    v ∈ reach g s n ↔ ∃ m, m ≤ n ∧ WalkTo g s v m := by
  induction n generalizing v with
  | zero =>
      simp only [reach, List.mem_singleton]
      constructor
      · rintro rfl; exact ⟨0, Nat.le_refl 0, WalkTo.base⟩
      · rintro ⟨m, hm, hw⟩
        cases Nat.le_zero.mp hm
        cases hw; rfl
  | succ n ih =>
      constructor
      · intro hv
        simp only [reach, List.mem_dedup, List.mem_append] at hv
        rcases hv with hv | hv
        · obtain ⟨m, hm, hw⟩ := ih.mp hv
          exact ⟨m, Nat.le_succ_of_le hm, hw⟩
        · simp only [List.mem_map, List.mem_filter, decide_eq_true_eq] at hv
          obtain ⟨e, ⟨hmem, hsrc⟩, rfl⟩ := hv
          obtain ⟨m, hm, hw⟩ := ih.mp hsrc
          exact ⟨m + 1, Nat.succ_le_succ hm, hw.step ⟨e, hmem, rfl, rfl⟩⟩
      · rintro ⟨m, hm, hw⟩
        rcases Nat.lt_or_ge m (n+1) with hlt | hge
        · exact reach_subset_succ (ih.mpr ⟨m, Nat.lt_succ_iff.mp hlt, hw⟩)
        · have hmn : m = n + 1 := Nat.le_antisymm hm hge
          subst hmn
          cases hw with
          | step hu he =>
              rename_i u
              have hu' : u ∈ reach g s n := ih.mpr ⟨n, Nat.le_refl n, hu⟩
              obtain ⟨e, hmem, hsrc, htgt⟩ := he
              simp only [reach, List.mem_dedup, List.mem_append]
              right
              refine List.mem_map.mpr ⟨e, List.mem_filter.mpr ⟨hmem, ?_⟩, htgt⟩
              simp only [decide_eq_true_eq]
              rw [hsrc]; exact hu'

/-- Least `n` in `[start, start + fuel]` satisfying `p`, scanning upward. -/
def findLeast (p : Nat → Bool) : Nat → Nat → Option Nat
  | start, 0 => if p start then some start else none
  | start, fuel+1 => if p start then some start else findLeast p (start+1) fuel

theorem findLeast_some {p : Nat → Bool} :
    ∀ {start fuel n}, findLeast p start fuel = some n →
      p n = true ∧ start ≤ n ∧ ∀ m, start ≤ m → m < n → p m = false := by
  intro start fuel
  induction fuel generalizing start with
  | zero =>
      intro n h
      simp only [findLeast] at h
      split at h
      · cases h
        exact ⟨by assumption, Nat.le_refl _, fun m h1 h2 => absurd h1 (Nat.not_le_of_lt h2)⟩
      · cases h
  | succ fuel ih =>
      intro n h
      simp only [findLeast] at h
      split at h
      · cases h
        exact ⟨by assumption, Nat.le_refl _, fun m h1 h2 => absurd h1 (Nat.not_le_of_lt h2)⟩
      · rename_i hps
        obtain ⟨hp, hle, hmin⟩ := ih h
        refine ⟨hp, Nat.le_of_succ_le hle, fun m h1 h2 => ?_⟩
        rcases Nat.lt_or_ge m (start+1) with hlt | hge
        · have : m = start := Nat.le_antisymm (Nat.lt_succ_iff.mp hlt) h1
          subst this
          exact Bool.of_not_eq_true hps
        · exact hmin m hge h2

theorem findLeast_none {p : Nat → Bool} :
    ∀ {start fuel}, findLeast p start fuel = none →
      ∀ m, start ≤ m → m ≤ start + fuel → p m = false := by
  intro start fuel
  induction fuel generalizing start with
  | zero =>
      intro h m h1 h2
      simp only [findLeast] at h
      split at h
      · cases h
      · have : m = start := Nat.le_antisymm (by simpa using h2) h1
        subst this
        rename_i hps
        exact Bool.of_not_eq_true hps
  | succ fuel ih =>
      intro h m h1 h2
      simp only [findLeast] at h
      split at h
      · cases h
      · rename_i hps
        rcases Nat.lt_or_ge m (start+1) with hlt | hge
        · have : m = start := Nat.le_antisymm (Nat.lt_succ_iff.mp hlt) h1
          subst this
          exact Bool.of_not_eq_true hps
        · exact ih h m hge (by omega)

/-- Extract a breadth-first witness walk: walk backward from `v` through the
reachability layers, collecting predecessors. -/
def extract (g : KnowledgeGraph) (s : Str) : Nat → Str → List Str
  | 0, v => [v]
  | k+1, v =>
      if v ∈ reach g s k then extract g s k v
      else
        match (reach g s k).find? (fun u => hasEdge g u v) with
        | some u => extract g s k u ++ [v]
        | none => [v]

theorem extract_sound {g s} : ∀ {k v}, v ∈ reach g s k →
    WalkFrom g (extract g s k v) s v ∧ (extract g s k v).length ≤ k + 1 := by
  intro k
  induction k with
  | zero =>
      intro v hv
      simp only [reach, List.mem_singleton] at hv
      subst hv
      exact ⟨walkFrom_singleton g v, by simp [extract]⟩
  | succ k ih =>
      intro v hv
      by_cases hk : v ∈ reach g s k
      · have := ih hk
        simp only [extract, if_pos hk]
        exact ⟨this.1, Nat.le_succ_of_le this.2⟩
      · have hpred : ∃ u ∈ reach g s k, hasEdge g u v := by
          simp only [reach, List.mem_dedup, List.mem_append] at hv
          rcases hv with hv | hv
          · exact absurd hv hk
          · simp only [List.mem_map, List.mem_filter, decide_eq_true_eq] at hv
            obtain ⟨e, ⟨hmem, hsrc⟩, rfl⟩ := hv
            exact ⟨e.source, hsrc, e, hmem, rfl, rfl⟩
        cases hfind : (reach g s k).find? (fun u => hasEdge g u v) with
        | none =>
            exfalso
            obtain ⟨u, hu, he⟩ := hpred
            have := List.find?_eq_none.mp hfind u hu
            simp only [decide_eq_true_eq] at this
            exact this he
        | some u =>
            have hu : u ∈ reach g s k := List.mem_of_find?_eq_some hfind
            have he : hasEdge g u v := by
              have := List.find?_some hfind
              simpa using this
            obtain ⟨hw, hl⟩ := ih hu
            simp only [extract, if_neg hk, hfind]
            exact ⟨hw.append_edge he, by simp; omega⟩

theorem split_of_not_nodup {α : Type} {l : List α} (h : ¬ l.Nodup) :
    ∃ a l1 l2 l3, l = l1 ++ a :: l2 ++ a :: l3 := by
  induction l with
  | nil => simp at h
  | cons b l ih =>
      by_cases hb : b ∈ l
      · obtain ⟨l2, l3, rfl⟩ := List.append_of_mem hb
        exact ⟨b, [], l2, l3, rfl⟩
      · have hl : ¬ l.Nodup := by
          intro hnd
          exact h (List.nodup_cons.mpr ⟨hb, hnd⟩)
        obtain ⟨a, l1, l2, l3, rfl⟩ := ih hl
        exact ⟨a, b :: l1, l2, l3, rfl⟩

/-- Cutting out the segment between two occurrences of the same vertex
preserves being a walk and strictly shortens it. -/
theorem walkFrom_cut {g s t a} {l1 l2 l3 : List Str}
    (h : WalkFrom g (l1 ++ a :: l2 ++ a :: l3) s t) :
    WalkFrom g (l1 ++ a :: l3) s t := by
  obtain ⟨h1, h2, h3⟩ := h
  have hassoc : l1 ++ a :: l2 ++ a :: l3 = l1 ++ ((a :: l2) ++ (a :: l3)) := by simp
  rw [hassoc] at h1 h2 h3
  have hchain := List.chain'_append.mp h3
  have hinner := List.chain'_append.mp hchain.2.1
  refine ⟨?_, ?_, ?_⟩
  · cases l1 with
    | nil => simpa using h1
    | cons x xs =>
        rw [List.head?_append_of_ne_nil _ (by simp)] at h1 ⊢
        exact h1
  · have e1 : (l1 ++ a :: l3).getLast? = (a :: l3).getLast? :=
      List.getLast?_append_cons _ _ _
    have e2 : (l1 ++ (a :: l2 ++ a :: l3)).getLast? = (a :: l2 ++ a :: l3).getLast? :=
      List.getLast?_append_of_ne_nil _ (by simp)
    have e3 : (a :: l2 ++ a :: l3 : List Str).getLast? = (a :: l3).getLast? := by
      rw [show (a :: l2 ++ a :: l3 : List Str) = (a :: l2) ++ (a :: l3) from by simp]
      exact List.getLast?_append_of_ne_nil _ (by simp)
    rw [e1, ← e3, ← e2]; exact h2
  · refine List.Chain'.append hchain.1 hinner.2.1 ?_
    intro x hx y hy
    refine hchain.2.2 x hx y ?_
    rw [List.head?_append_of_ne_nil _ (by simp)]
    exact hy

theorem exists_nodup_walk_aux {g s t} :
    ∀ (N : Nat) (p : List Str), p.length ≤ N → WalkFrom g p s t →
      ∃ q, WalkFrom g q s t ∧ q.Nodup ∧ q.length ≤ p.length := by
  intro N
  induction N with
  | zero =>
      intro p hN h
      have : p = [] := List.eq_nil_of_length_eq_zero (Nat.le_zero.mp hN)
      exact absurd this h.ne_nil
  | succ N ih =>
      intro p hN h
      by_cases hnd : p.Nodup
      · exact ⟨p, h, hnd, Nat.le_refl _⟩
      · obtain ⟨a, l1, l2, l3, hsplit⟩ := split_of_not_nodup hnd
        subst hsplit
        have hcut := walkFrom_cut h
        have hlen : (l1 ++ a :: l3).length < (l1 ++ a :: l2 ++ a :: l3).length := by
          simp; omega
        obtain ⟨q, hq, hqnd, hql⟩ := ih (l1 ++ a :: l3) (by omega) hcut
        exact ⟨q, hq, hqnd, Nat.le_of_lt (Nat.lt_of_le_of_lt hql hlen)⟩

theorem exists_nodup_walk {g s t} {p : List Str} (h : WalkFrom g p s t) :
    ∃ q, WalkFrom g q s t ∧ q.Nodup ∧ q.length ≤ p.length :=
  exists_nodup_walk_aux p.length p (Nat.le_refl _) h

theorem chain_tail_mem {g} (wf : WellFormed g) :
    ∀ (p : List Str) (b : Str), List.Chain' (hasEdge g) (b :: p) →
      ∀ x ∈ p, x ∈ g.nodes := by
  intro p
  induction p with
  | nil => intro b _ x hx; cases hx
  | cons c q ih =>
      intro b hch x hx
      have hedge : hasEdge g b c := (List.chain'_cons.mp hch).1
      have hc : c ∈ g.nodes := by
        obtain ⟨e, hmem, _, htgt⟩ := hedge
        exact htgt ▸ (wf e hmem).2
      rcases List.mem_cons.mp hx with rfl | hxq
      · exact hc
      · exact ih c (List.chain'_cons.mp hch).2 x hxq

/-- Vertices of a walk lie in the node list (source assumed present,
edge endpoints present by well-formedness). -/
theorem walk_vertices_mem {g s t} {p : List Str} (wf : WellFormed g)
    (hs : s ∈ g.nodes) (h : WalkFrom g p s t) : ∀ x ∈ p, x ∈ g.nodes := by
  obtain ⟨h1, _, h3⟩ := h
  intro x hx
  cases p with
  | nil => cases hx
  | cons b q =>
      simp only [List.head?_cons, Option.some_inj] at h1
      subst h1
      rcases List.mem_cons.mp hx with rfl | hxq
      · exact hs
      · exact chain_tail_mem wf q _ h3 x hxq

/-- Least number of edges of any walk from `s` to `t`, searched up to the
number of nodes (a shortest walk is vertex-distinct, hence within bound). -/
def bfsDist (g : KnowledgeGraph) (s t : Str) : Option Nat :=
  findLeast (fun n => decide (t ∈ reach g s n)) 0 g.nodes.length

/-- The vertex list `nx.shortest_path` yields: `none` models the
`NetworkXNoPath`/`NodeNotFound` exceptions. -/
def shortestPathNodes (g : KnowledgeGraph) (s t : Str) : Option (List Str) :=
  if s ∈ g.nodes ∧ t ∈ g.nodes then
    match bfsDist g s t with
    | some n => some (extract g s n t)
    | none => none
  else none

/-- One step of the `get_path` result: source, target and the stored edge
attributes of the traversed edge. -/
structure PathStep where
  source : Str
  target : Str
  relation_type : Str
  sentence : Str
deriving DecidableEq

/-- `self.graph.get_edge_data(u, v)` followed by the step-record construction
in `get_path`'s loop.  The `none` branch is unreachable for consecutive
vertices of a returned path (Python would raise there). -/
def stepOf (g : KnowledgeGraph) (u v : Str) : PathStep :=
  match g.edges.find? (fun e => e.source = u ∧ e.target = v) with
  | some e => { source := u, target := v, relation_type := e.relation_type,
                sentence := e.sentence }
  | none => { source := u, target := v, relation_type := [], sentence := [] }

/-- The loop of `get_path`: one step per consecutive vertex pair. -/
def pathSteps (g : KnowledgeGraph) (p : List Str) : List PathStep :=
  (p.zip p.tail).map (fun uv => stepOf g uv.1 uv.2)

/-- `KnowledgeGraph.get_path`: empty on missing endpoint or missing route. -/
def KnowledgeGraph.get_path (g : KnowledgeGraph) (s t : Str) : List PathStep :=
  match shortestPathNodes g s t with
  | some p => pathSteps g p
  | none => []

theorem get_path_endpoint_missing {g : KnowledgeGraph} {s t : Str}
    (h : s ∉ g.nodes ∨ t ∉ g.nodes) : g.get_path s t = [] := by
  have : ¬ (s ∈ g.nodes ∧ t ∈ g.nodes) := by tauto
  simp [KnowledgeGraph.get_path, shortestPathNodes, if_neg this]

theorem get_path_no_walk {g : KnowledgeGraph} {s t : Str}
    (h : ∀ n, ¬ WalkTo g s t n) : g.get_path s t = [] := by
  unfold KnowledgeGraph.get_path shortestPathNodes
  by_cases hin : s ∈ g.nodes ∧ t ∈ g.nodes
  · rw [if_pos hin]
    cases hd : bfsDist g s t with
    | none => rfl
    | some n =>
        exfalso
        have := (findLeast_some hd).1
        simp only [decide_eq_true_eq] at this
        obtain ⟨m, _, hw⟩ := mem_reach_iff.mp this
        exact h m hw
  · rw [if_neg hin]

theorem findLeast_isSome {p : Nat → Bool} {start fuel m : Nat}
    (h1 : start ≤ m) (h2 : m ≤ start + fuel) (hp : p m = true) :
    ∃ n, findLeast p start fuel = some n := by
  cases hf : findLeast p start fuel with
  | none => exact absurd hp (by simp [findLeast_none hf m h1 h2])
  | some n => exact ⟨n, rfl⟩

/-- Main `get_path` correctness: when both endpoints are nodes and some walk
exists, the result is the step list of a walk from `s` to `t` of minimal
edge count. -/
theorem get_path_shortest {g : KnowledgeGraph} {s t : Str} {m : Nat}
    (wf : WellFormed g) (hs : s ∈ g.nodes) (ht : t ∈ g.nodes)
    (hw : WalkTo g s t m) :
    ∃ p, WalkFrom g p s t ∧ g.get_path s t = pathSteps g p ∧
      ∀ n, WalkTo g s t n → p.length ≤ n + 1 := by
  obtain ⟨q0, hq0, hq0len⟩ := walkFrom_of_walkTo hw
  obtain ⟨q, hq, hqnd, _⟩ := exists_nodup_walk hq0
  have hsub : q ⊆ g.nodes := fun x hx => walk_vertices_mem wf hs hq x hx
  have hqlen : q.length ≤ g.nodes.length :=
    (hqnd.subperm hsub).length_le
  have hreach : t ∈ reach g s (q.length - 1) :=
    mem_reach_iff.mpr ⟨q.length - 1, Nat.le_refl _, walkTo_of_walkFrom hq⟩
  have hex : ∃ n, findLeast (fun n => decide (t ∈ reach g s n)) 0 g.nodes.length =
      some n :=
    findLeast_isSome (m := q.length - 1) (Nat.zero_le _) (by omega)
      (by simp only [decide_eq_true_eq]; exact hreach)
  obtain ⟨n, hn⟩ := hex
  obtain ⟨hpn, _, hmin⟩ := findLeast_some hn
  have hpn' : t ∈ reach g s n := by
    simpa only [decide_eq_true_eq] using hpn
  obtain ⟨hwalk, hlen⟩ := extract_sound hpn'
  refine ⟨extract g s n t, hwalk, ?_, ?_⟩
  · have hbd : bfsDist g s t = some n := hn
    unfold KnowledgeGraph.get_path shortestPathNodes
    rw [if_pos ⟨hs, ht⟩, hbd]
  · intro k hk
    have hkreach : t ∈ reach g s k := mem_reach_iff.mpr ⟨k, Nat.le_refl _, hk⟩
    have hnk : n ≤ k := by
      by_contra hc
      have := hmin k (Nat.zero_le _) (Nat.lt_of_not_le hc)
      simp only [decide_eq_false_iff_not] at this
      exact this hkreach
    omega

/-- Every emitted step records its own endpoints and the stored attributes of
the edge between them. -/
theorem stepOf_source (g : KnowledgeGraph) (u v : Str) : (stepOf g u v).source = u := by
  unfold stepOf
  split <;> rfl

theorem stepOf_target (g : KnowledgeGraph) (u v : Str) : (stepOf g u v).target = v := by
  unfold stepOf
  split <;> rfl

theorem mem_pathSteps {g : KnowledgeGraph} {p : List Str} {st : PathStep}
    (h : st ∈ pathSteps g p) : st = stepOf g st.source st.target := by
  simp only [pathSteps, List.mem_map] at h
  obtain ⟨uv, _, rfl⟩ := h
  rw [stepOf_source, stepOf_target]

/-! ### LRU cache (`llamagraph/utils/cache.py`)

The cache is parameterized by the value type `V` and by `hashF`, modelling
Python's (process-salted) string `hash`; the on-disk filename for a key is
`f"[abs(hash(key))].cache"`, so the filename stem is the decimal digit string
of `hashF key`.  `mem` models the `OrderedDict` (front = first-inserted =
least recently used, back = most recently used); `disk` models the cache
directory, keyed by filename stem. -/

/-- Filename stem `f"[abs(hash(key))]"` of `Cache._get_cache_file`. -/
def stem (hashF : Str → Nat) (k : Str) : Str := Nat.toDigits 10 (hashF k)

/-- Association-list lookup (first match). -/
def lookup {V : Type} (l : List (Str × V)) (k : Str) : Option V :=
  (l.find? (fun kv => kv.1 = k)).map Prod.snd

/-- Python dict assignment: replace in place if the key exists (keeping its
position, as `OrderedDict.__setitem__` does), else append at the end. -/
def assocUpdate {V : Type} (l : List (Str × V)) (k : Str) (v : V) : List (Str × V) :=
  if l.any (fun kv => kv.1 = k) then
    l.map (fun kv => if kv.1 = k then (k, v) else kv)
  else l ++ [(k, v)]

/-- Deleting a file: drop the entry with this key (no-op when absent,
mirroring the `cache_file.exists()` guard). -/
def assocRemove {V : Type} (l : List (Str × V)) (k : Str) : List (Str × V) :=
  l.filter (fun kv => ¬ kv.1 = k)

structure Cache (V : Type) where
  max_size : Nat
  mem : List (Str × V)
  disk : List (Str × V)

/-- The `while len(self.cache) > self.max_size` loop of `Cache._prune_cache`:
pop the first (least-recently-used) entry and delete its disk mirror. -/
def pruneLoop {V : Type} (hashF : Str → Nat) (max : Nat) :
    List (Str × V) → List (Str × V) → List (Str × V) × List (Str × V)
  | [], disk => ([], disk)
  | (k, v) :: rest, disk =>
      if max < ((k, v) :: rest).length then
        pruneLoop hashF max rest (assocRemove disk (stem hashF k))
      else ((k, v) :: rest, disk)

/-- `Cache._prune_cache`. -/
def Cache.prune {V : Type} (hashF : Str → Nat) (c : Cache V) : Cache V :=
  { c with mem := (pruneLoop hashF c.max_size c.mem c.disk).1,
           disk := (pruneLoop hashF c.max_size c.mem c.disk).2 }

/-- `Cache.set`: write to memory, prune, then write the disk mirror. -/
def Cache.set {V : Type} (hashF : Str → Nat) (c : Cache V) (k : Str) (v : V) : Cache V :=
  let c1 := Cache.prune hashF { c with mem := assocUpdate c.mem k v }
  { c1 with disk := assocUpdate c1.disk (stem hashF k) v }

/-- `Cache.get`: memory hit moves the entry to the most-recently-used end;
memory miss falls back to the disk record for the key's filename, re-inserts
it in memory under the key, and prunes. -/
def Cache.get {V : Type} (hashF : Str → Nat) (c : Cache V) (k : Str) :
    Option V × Cache V :=
  match lookup c.mem k with
  | some v => (some v, { c with mem := assocRemove c.mem k ++ [(k, v)] })
  | none =>
      match lookup c.disk (stem hashF k) with
      | some v => (some v, Cache.prune hashF { c with mem := c.mem ++ [(k, v)] })
      | none => (none, c)

/-- `Cache.__init__` plus `Cache._load_cache`: `sortedDisk` is the directory
listing sorted by modification time most-recent-first; up to `max_size`
entries are loaded into memory in that order, keyed by filename stem
(`key = file.stem`). -/
def Cache.init {V : Type} (max_size : Nat) (sortedDisk : List (Str × V)) : Cache V :=
  { max_size := max_size, mem := sortedDisk.take max_size, disk := sortedDisk }

/-- Folding `set` over a list of (fingerprint, value) pairs. -/
def setMany {V : Type} (hashF : Str → Nat) (c : Cache V) (ps : List (Str × V)) : Cache V :=
  ps.foldl (fun c p => Cache.set hashF c p.1 p.2) c

theorem pruneLoop_of_le {V : Type} {hashF max} {mem disk : List (Str × V)}
    (h : mem.length ≤ max) : pruneLoop hashF max mem disk = (mem, disk) := by
  cases mem with
  | nil => rfl
  | cons p rest =>
      cases p with
      | mk k v =>
          unfold pruneLoop
          rw [if_neg (Nat.not_lt_of_le h)]

/-- `prune` removes exactly the excess from the least-recently-used end. -/
theorem pruneLoop_drop {V : Type} {hashF max} :
    ∀ (mem disk : List (Str × V)), (pruneLoop hashF max mem disk).1 = mem.drop (mem.length - max) := by
  intro mem
  induction mem with
  | nil => intro disk; simp [pruneLoop]
  | cons p rest ih =>
      intro disk
      cases p with
      | mk k v =>
          unfold pruneLoop
          by_cases h : max < ((k, v) :: rest).length
          · rw [if_pos h]
            rw [ih]
            simp only [List.length_cons] at h ⊢
            have hdrop : rest.length + 1 - max = (rest.length - max) + 1 := by omega
            rw [hdrop]
            rfl
          · rw [if_neg h]
            simp only [List.length_cons] at h
            have hz : rest.length + 1 - max = 0 := by omega
            simp only [List.length_cons, hz]
            rfl

theorem lookup_eq_none_iff {V : Type} {l : List (Str × V)} {k : Str} :
    lookup l k = none ↔ ∀ p ∈ l, p.1 ≠ k := by
  rw [lookup, Option.map_eq_none', List.find?_eq_none]
  simp only [decide_eq_true_eq]

theorem assocUpdate_absent {V : Type} {l : List (Str × V)} {k : Str} {v : V}
    (h : ∀ p ∈ l, p.1 ≠ k) : assocUpdate l k v = l ++ [(k, v)] := by
  unfold assocUpdate
  rw [if_neg]
  simp only [List.any_eq_true, decide_eq_true_eq, not_exists, not_and]
  exact fun p hp => h p hp

theorem assocRemove_absent {V : Type} {l : List (Str × V)} {k : Str}
    (h : ∀ p ∈ l, p.1 ≠ k) : assocRemove l k = l := by
  unfold assocRemove
  rw [List.filter_eq_self.mpr]
  intro p hp
  simpa using h p hp

theorem assocRemove_cons_self {V : Type} {l : List (Str × V)} {k : Str} {v : V} :
    assocRemove ((k, v) :: l) k = assocRemove l k := by
  simp [assocRemove]

theorem pruneLoop_one {V : Type} {hashF max} {k : Str} {v : V}
    {rest disk : List (Str × V)} (h : rest.length = max) :
    pruneLoop hashF max ((k, v) :: rest) disk =
      (rest, assocRemove disk (stem hashF k)) := by
  unfold pruneLoop
  rw [if_pos (by simp [h])]
  exact pruneLoop_of_le (by omega)

theorem foldl_assocUpdate_fresh {V : Type} (hashF : Str → Nat) :
    ∀ (ps : List (Str × V)) (d : List (Str × V)),
      (∀ p ∈ ps, ∀ q ∈ d, q.1 ≠ stem hashF p.1) →
      (ps.map (fun p => stem hashF p.1)).Nodup →
      ps.foldl (fun d p => assocUpdate d (stem hashF p.1) p.2) d =
        d ++ ps.map (fun p => (stem hashF p.1, p.2)) := by
  intro ps
  induction ps with
  | nil => intro d _ _; simp
  | cons p ps ih =>
      intro d hfresh hnd
      rw [List.map_cons] at hnd
      obtain ⟨hnd1, hnd2⟩ := List.nodup_cons.mp hnd
      simp only [List.foldl_cons]
      rw [assocUpdate_absent (fun q hq => hfresh p (List.mem_cons_self p ps) q hq)]
      have hfresh2 : ∀ p2 ∈ ps, ∀ q ∈ d ++ [(stem hashF p.1, p.2)],
          q.1 ≠ stem hashF p2.1 := by
        intro p2 hp2 q hq
        rcases List.mem_append.mp hq with hq | hq
        · exact hfresh p2 (List.mem_cons_of_mem p hp2) q hq
        · rw [List.mem_singleton] at hq
          subst hq
          intro hcontra
          exact hnd1 (List.mem_map.mpr ⟨p2, hp2, hcontra.symm⟩)
      rw [ih (d ++ [(stem hashF p.1, p.2)]) hfresh2 hnd2]
      simp

theorem setMany_fill {V : Type} (hashF : Str → Nat) :
    ∀ (ps : List (Str × V)) (c : Cache V),
      (∀ p ∈ ps, ∀ q ∈ c.mem, q.1 ≠ p.1) →
      (ps.map Prod.fst).Nodup →
      c.mem.length + ps.length ≤ c.max_size →
      setMany hashF c ps =
        { max_size := c.max_size, mem := c.mem ++ ps,
          disk := ps.foldl (fun d p => assocUpdate d (stem hashF p.1) p.2) c.disk } := by
  intro ps
  induction ps with
  | nil => intro c _ _ _; simp [setMany]
  | cons p ps ih =>
      intro c hfresh hnd hlen
      rw [List.map_cons] at hnd
      obtain ⟨hnd1, hnd2⟩ := List.nodup_cons.mp hnd
      rw [List.length_cons] at hlen
      have hmemup : assocUpdate c.mem p.1 p.2 = c.mem ++ [(p.1, p.2)] :=
        assocUpdate_absent (fun q hq => hfresh p (List.mem_cons_self p ps) q hq)
      have hstep : Cache.set hashF c p.1 p.2 =
          { max_size := c.max_size, mem := c.mem ++ [(p.1, p.2)],
            disk := assocUpdate c.disk (stem hashF p.1) p.2 } := by
        unfold Cache.set Cache.prune
        simp only [hmemup]
        rw [pruneLoop_of_le (by rw [List.length_append]; simp; omega)]
      have hall : setMany hashF c (p :: ps) = setMany hashF (Cache.set hashF c p.1 p.2) ps := by
        simp [setMany]
      rw [hall, hstep, ih]
      · simp
      · intro p2 hp2 q hq
        simp only [List.mem_append, List.mem_singleton] at hq
        rcases hq with hq | hq
        · exact hfresh p2 (List.mem_cons_of_mem p hp2) q hq
        · subst hq
          intro hcontra
          exact hnd1 (List.mem_map.mpr ⟨p2, hp2, hcontra.symm⟩)
      · exact hnd2
      · simp only [List.length_append, List.length_singleton]
        omega

/-! ### Query engine (`llamagraph/graph/query_engine.py`)

The six command patterns are fixed regexes compiled with `re.IGNORECASE` and
matched anchored at the start (`re.match`) with `$` at the end:
`^find\s+(.+)$`, `^path\s+from\s+(.+)\s+to\s+(.+)$`, `^related\s+(.+)$`,
`^count\s+(.+)$`, `^export\s+(.+)$`, `^help$`, tried in that (dict) order.
They are embedded as explicit matching functions with the same greedy,
backtracking semantics. -/

def isWs (c : Char) : Bool := c.isWhitespace

/-- `str.lower()` (ASCII case, all the patterns and names involved need). -/
def lowerStr (s : Str) : Str := s.map Char.toLower

/-- `str.strip()`. -/
def trim (s : Str) : Str := ((s.dropWhile isWs).reverse.dropWhile isWs).reverse

/-- Case-insensitive literal keyword at the start; returns the remainder. -/
def matchKw : Str → Str → Option Str
  | [], rest => some rest
  | _, [] => none
  | c :: cs, d :: ds => if c.toLower = d.toLower then matchKw cs ds else none

/-- `\s+(.+)$`: a maximal run of whitespace, backtracking one character when
the remainder would otherwise be empty, then the nonempty greedy group. -/
def tailMatch (rest : Str) : Option Str :=
  let w := rest.takeWhile isWs
  let r := rest.dropWhile isWs
  if w.isEmpty then none
  else if r.isEmpty then
    (if 2 ≤ w.length then some (w.drop (w.length - 1)) else none)
  else some r

def findMatch (q : Str) : Option Str := (matchKw (str "find") q).bind tailMatch

def relatedMatch (q : Str) : Option Str := (matchKw (str "related") q).bind tailMatch

def countMatch (q : Str) : Option Str := (matchKw (str "count") q).bind tailMatch

def exportMatch (q : Str) : Option Str := (matchKw (str "export") q).bind tailMatch

/-- `^help$` (case-insensitive). -/
def helpMatch (q : Str) : Bool := lowerStr q = str "help"

/-- `\s+to\s+(.+)$`: the run of whitespace must be followed directly by `to`
(whitespace characters never match the literal, so no backtracking arises
before `to`), then `\s+(.+)$` as in `tailMatch`. -/
def sepMatch (rem : Str) : Option Str :=
  let w := rem.takeWhile isWs
  let r := rem.dropWhile isWs
  if w.isEmpty then none
  else (matchKw (str "to") r).bind tailMatch

/-- Greedy group 1 of `(.+)\s+to\s+(.+)$` against `R`: try the longest
nonempty prefix first, shrinking until the separator and group 2 match. -/
def splitToAux (R : Str) : Nat → Option (Str × Str)
  | 0 => none
  | i+1 =>
      match sepMatch (R.drop (i+1)) with
      | some g2 => some (R.take (i+1), g2)
      | none => splitToAux R i

/-- `\s+(.+)\s+to\s+(.+)$`: the leading `\s+` takes `k` characters of the
whitespace run, longest first; group 1 may then start with the remaining
whitespace. -/
def wsThenGroups (rest : Str) : Nat → Option (Str × Str)
  | 0 => none
  | k+1 =>
      match splitToAux (rest.drop (k+1)) (rest.drop (k+1)).length with
      | some gs => some gs
      | none => wsThenGroups rest k

/-- `^path\s+from\s+(.+)\s+to\s+(.+)$` (case-insensitive). -/
def pathMatch (q : Str) : Option (Str × Str) :=
  match matchKw (str "path") q with
  | none => none
  | some r1 =>
      let w1 := r1.takeWhile isWs
      let r2 := r1.dropWhile isWs
      if w1.isEmpty then none
      else
        match matchKw (str "from") r2 with
        | none => none
        | some r3 => wsThenGroups r3 (r3.takeWhile isWs).length

/-- Python's apostrophe character, used in the quoted names of the messages. -/
def quoteChar : Char := Char.ofNat 39

def quoted (s : Str) : Str := [quoteChar] ++ s ++ [quoteChar]

/-- `Entity.to_dict()` (the `mentions` list carries the set's elements). -/
structure EntityDict where
  text : Str
  entity_type : Str
  occurrences : Nat
  mentions : Finset Str
deriving DecidableEq

def Entity.to_dict (e : Entity) : EntityDict :=
  { text := e.text, entity_type := e.entity_type,
    occurrences := e.occurrences, mentions := e.mentions }

/-- One entry of the `similar_entities` list of `_handle_related`. -/
structure SimilarEntry where
  entity : Str
  shared_relation_type : Str
  via : Str
deriving DecidableEq

/-- The `data` payload of a query response. -/
inductive QueryData where
  | findD (entity : EntityDict) (relations : List RelEntry)
  | pathD (path : List PathStep) (length : Nat)
  | relatedD (direct_relations : List RelEntry) (similar_entities : List SimilarEntry)
  | countD (counts : List (Str × Nat)) (total : Nat)
  | helpD (commands : List (Str × Str))
deriving DecidableEq

/-- The uniform response structure `[success, message, data]` every handler
returns (`data = none` models `"data": None` / an absent payload). -/
structure QueryResult where
  success : Bool
  message : Str
  data : Option QueryData
deriving DecidableEq

/-- `QueryEngine._handle_find`: exact lookup, then the first entity whose
key matches case-insensitively. -/
def handle_find (g : KnowledgeGraph) (entity_name : Str) : QueryResult :=
  let exact := g.get_entity entity_name
  let entity := match exact with
    | some e => some e
    | none => g.entities.find? (fun e => lowerStr e.text = lowerStr entity_name)
  match entity with
  | some e =>
      { success := true, message := str "Found entity: " ++ e.text,
        data := some (QueryData.findD e.to_dict (g.get_relations e.text)) }
  | none =>
      { success := false,
        message := str "Entity " ++ quoted entity_name ++ str " not found.",
        data := none }

/-- `QueryEngine._handle_path`. -/
def handle_path (g : KnowledgeGraph) (source target : Str) : QueryResult :=
  match g.get_entity source with
  | none =>
      { success := false,
        message := str "Source entity " ++ quoted source ++ str " not found.",
        data := none }
  | some se =>
      match g.get_entity target with
      | none =>
          { success := false,
            message := str "Target entity " ++ quoted target ++ str " not found.",
            data := none }
      | some te =>
          let path := g.get_path se.text te.text
          if path.isEmpty then
            { success := false,
              message := str "No path found from " ++ quoted source ++
                str " to " ++ quoted target ++ str ".",
              data := none }
          else
            { success := true,
              message := str "Found path from " ++ quoted source ++
                str " to " ++ quoted target,
              data := some (QueryData.pathD path path.length) }

/-- `QueryEngine._handle_related`: exact lookup only (no case-insensitive
fallback), then directly related entries plus entities sharing a relation of
the same type with a neighbour, capped at 5. -/
def handle_related (g : KnowledgeGraph) (entity_name : Str) : QueryResult :=
  match g.get_entity entity_name with
  | none =>
      { success := false,
        message := str "Entity " ++ quoted entity_name ++ str " not found.",
        data := none }
  | some e =>
      let direct := g.get_relations e.text
      let similar := direct.flatMap (fun rel =>
        (g.get_relations rel.entity).filterMap (fun orel =>
          if orel.entity ≠ e.text ∧ orel.relation_type = rel.relation_type then
            some { entity := orel.entity, shared_relation_type := rel.relation_type,
                   via := rel.entity }
          else none))
      { success := true,
        message := str "Found related entities for " ++ quoted entity_name,
        data := some (QueryData.relatedD direct (similar.take 5)) }

/-- `counts[t] = counts.get(t, 0) + 1` over an insertion-ordered dict. -/
def bumpCount (l : List (Str × Nat)) (t : Str) : List (Str × Nat) :=
  if l.any (fun kv => kv.1 = t) then
    l.map (fun kv => if kv.1 = t then (kv.1, kv.2 + 1) else kv)
  else l ++ [(t, 1)]

/-- `KnowledgeGraph._count_entity_types` / `_count_relation_types`. -/
def countTypes (ts : List Str) : List (Str × Nat) := ts.foldl bumpCount []

/-- `QueryEngine._handle_count`. -/
def handle_count (g : KnowledgeGraph) (entity_type : Str) : QueryResult :=
  let counts :=
    if lowerStr entity_type = str "entities" then
      countTypes (g.entities.map Entity.entity_type)
    else if lowerStr entity_type = str "relations" then
      countTypes (g.relations.map Relation.relation_type)
    else
      [(entity_type,
        (g.entities.filter (fun e => lowerStr e.entity_type = lowerStr entity_type)).length)]
  { success := true, message := str "Count for " ++ entity_type,
    data := some (QueryData.countD counts (counts.map Prod.snd).sum) }

/-- `QueryEngine._handle_export`: `exportErr` models the outcome of the
`kg.save(filename)` file write (`some err` = the caught exception text). -/
def handle_export (exportErr : Option Str) (filename : Str) : QueryResult :=
  match exportErr with
  | none =>
      { success := true,
        message := str "Knowledge graph exported to " ++ filename, data := none }
  | some err =>
      { success := false,
        message := str "Error exporting knowledge graph: " ++ err, data := none }

/-- `QueryEngine._handle_help`. -/
def handle_help : QueryResult :=
  { success := true, message := str "Available commands:",
    data := some (QueryData.helpD
      [(str "find <entity>", str "Find information about an entity"),
       (str "path from <entity1> to <entity2>",
        str "Find the shortest path between two entities"),
       (str "related <entity>", str "Find entities related to the given entity"),
       (str "count entities", str "Count entities by type"),
       (str "count relations", str "Count relations by type"),
       (str "export <filename>", str "Export the knowledge graph to a file"),
       (str "help", str "Show this help message"),
       (str "exit", str "Exit the program")]) }

/-- Substring containment (`"find" in query`). -/
def hasSub (needle hay : Str) : Bool := hay.tails.any (fun t => needle.isPrefixOf t)

/-- `str.split()`: split on whitespace runs, discarding empties. -/
def splitWsAux : Str → Str → List Str
  | [], acc => if acc.isEmpty then [] else [acc.reverse]
  | c :: rest, acc =>
      if isWs c then
        (if acc.isEmpty then splitWsAux rest [] else acc.reverse :: splitWsAux rest [])
      else splitWsAux rest (c :: acc)

def splitWs (s : Str) : List Str := splitWsAux s []

def joinSp (ws : List Str) : Str := List.intercalate (str " ") ws

/-- The fixed "don't understand" response. -/
def dontUnderstand : QueryResult :=
  { success := false,
    message := str "I don" ++ [quoteChar] ++
      str "t understand that query. Try " ++ quoted (str "help") ++
      str " for a list of commands.",
    data := none }

/-- `QueryEngine.execute_query`: strip, try the six patterns in dict order,
then the lenient `find`/`show` fallback, else the default failure. -/
def execute_query (g : KnowledgeGraph) (exportErr : Option Str) (q0 : Str) : QueryResult :=
  let q := trim q0
  match findMatch q with
  | some name => handle_find g name
  | none =>
  match pathMatch q with
  | some ab => handle_path g ab.1 ab.2
  | none =>
  match relatedMatch q with
  | some name => handle_related g name
  | none =>
  match countMatch q with
  | some ty => handle_count g ty
  | none =>
  match exportMatch q with
  | some fn => handle_export exportErr fn
  | none =>
  if helpMatch q then handle_help
  else if hasSub (str "find") (lowerStr q) || hasSub (str "show") (lowerStr q) then
    let words := splitWs q
    let potential := if 1 < words.length then joinSp (words.drop 1) else []
    if potential.isEmpty then dontUnderstand else handle_find g potential
  else dontUnderstand

/-! ### Serialization (`to_dict` / `load`) -/

/-- `Relation.to_dict()`. -/
structure RelationDict where
  source : Str
  relation_type : Str
  target : Str
  sentence : Str
deriving DecidableEq

def Relation.to_dict (r : Relation) : RelationDict :=
  { source := r.source.text, relation_type := r.relation_type,
    target := r.target.text, sentence := r.sentence }

/-- The snapshot produced by `KnowledgeGraph.to_dict`. -/
structure KGDict where
  entities : List EntityDict
  relations : List RelationDict

def KnowledgeGraph.to_dict (g : KnowledgeGraph) : KGDict :=
  { entities := g.entities.map Entity.to_dict,
    relations := g.relations.map Relation.to_dict }

/-- In `load`: `Entity(text, entity_type, 0, 0)` followed by restoring
`occurrences` and `mentions` from the record. -/
def entityOfDict (d : EntityDict) : Entity :=
  { text := d.text, entity_type := d.entity_type, start := 0, stop := 0,
    occurrences := d.occurrences, mentions := d.mentions }

/-- One iteration of `load`'s relation loop: skipped (with a logged warning)
when either endpoint fails to resolve. -/
def loadRelation (g : KnowledgeGraph) (rd : RelationDict) : KnowledgeGraph :=
  match g.get_entity rd.source, g.get_entity rd.target with
  | some s, some t =>
      g.add_relation { source := s, target := t,
                       relation_type := rd.relation_type, sentence := rd.sentence }
  | _, _ => g

/-- `KnowledgeGraph.load`: clear, replay entities, then replay relations. -/
def KnowledgeGraph.load (d : KGDict) : KnowledgeGraph :=
  let g1 := d.entities.foldl (fun g ed => g.add_entity (entityOfDict ed)) KnowledgeGraph.empty
  d.relations.foldl loadRelation g1

/-! ### Basic facts about `add_entity` -/

theorem find?_map_update (e : Entity) :
    ∀ (l : List Entity),
      (l.map (fun x => if x.text = e.text then x.update e else x)).find?
          (fun x => x.text = e.text) =
        (l.find? (fun x => x.text = e.text)).map (fun x => x.update e) := by
  intro l
  induction l with
  | nil => rfl
  | cons y l ih =>
      by_cases hy : y.text = e.text
      · simp only [List.map_cons, if_pos hy, List.find?_cons]
        have h1 : (decide ((y.update e).text = e.text)) = true := by
          simp [Entity.update, hy]
        have h2 : (decide (y.text = e.text)) = true := by simp [hy]
        rw [h1, h2]
        rfl
      · simp only [List.map_cons, if_neg hy, List.find?_cons]
        have h2 : (decide (y.text = e.text)) = false := by simp [hy]
        rw [h2]
        exact ih

theorem get_entity_add_self (g : KnowledgeGraph) (e : Entity) :
    (g.add_entity e).get_entity e.text =
      some (match g.get_entity e.text with
            | some x => x.update e
            | none => e) := by
  unfold KnowledgeGraph.add_entity KnowledgeGraph.get_entity
  by_cases hany : g.entities.any (fun x => x.text = e.text)
  · rw [if_pos hany]
    simp only
    rw [find?_map_update]
    have : ∃ x ∈ g.entities, x.text = e.text := by
      simpa using hany
    obtain ⟨x, hx, hxt⟩ := this
    cases hf : g.entities.find? (fun x => x.text = e.text) with
    | none =>
        exfalso
        have := List.find?_eq_none.mp hf x hx
        simp [hxt] at this
    | some x0 => rfl
  · rw [if_neg hany]
    simp only
    rw [List.find?_append]
    have hnone : g.entities.find? (fun x => x.text = e.text) = none := by
      rw [List.find?_eq_none]
      intro x hx
      simp only [List.any_eq_true, decide_eq_true_eq, not_exists, not_and] at hany
      simp [hany x hx]
    rw [hnone]
    simp [KnowledgeGraph.get_entity, hnone]

theorem get_entity_text {g : KnowledgeGraph} {k : Str} {e : Entity}
    (h : g.get_entity k = some e) : e.text = k := by
  have := List.find?_some h
  simpa using this

/-- C1 (amended): for every graph store and every freshly constructed Entity
object `e` (`occurrences = 1`, as `Entity.__init__` sets), calling
`add_entity e` twice increases the stored entity's `occurrences` by exactly 1
on the call after the first, and leaves the canonical key / display text
(`text`) unchanged.  (For `occurrences = k ≠ 1` the second call adds `k`.) -/
theorem C1_idempotent_merge (g : KnowledgeGraph) (e : Entity)
    (h1 : e.occurrences = 1) :
    ∃ ent1 ent2,
      (g.add_entity e).get_entity e.text = some ent1 ∧
      ((g.add_entity e).add_entity e).get_entity e.text = some ent2 ∧
      ent2.occurrences = ent1.occurrences + 1 ∧
      ent1.text = e.text ∧ ent2.text = e.text := by
  cases hg : g.get_entity e.text with
  | none =>
      have hfirst := get_entity_add_self g e
      rw [hg] at hfirst
      have hsecond := get_entity_add_self (g.add_entity e) e
      rw [hfirst] at hsecond
      exact ⟨e, e.update e, hfirst, hsecond, by simp [Entity.update, h1], rfl, rfl⟩
  | some x =>
      have hxt : x.text = e.text := get_entity_text hg
      have hfirst := get_entity_add_self g e
      rw [hg] at hfirst
      have hsecond := get_entity_add_self (g.add_entity e) e
      rw [hfirst] at hsecond
      exact ⟨x.update e, (x.update e).update e, hfirst, hsecond,
        by simp [Entity.update, h1], by simpa [Entity.update] using hxt,
        by simpa [Entity.update] using hxt⟩

/-- Witness for C1 at the empty graph and a fresh entity "E". -/
theorem C1_idempotent_merge_witness :
    ∃ ent1 ent2,
      (KnowledgeGraph.empty.add_entity (Entity.mk0 (str "E") (str "T") 0 0)).get_entity
          (str "E") = some ent1 ∧
      ((KnowledgeGraph.empty.add_entity (Entity.mk0 (str "E") (str "T") 0 0)).add_entity
          (Entity.mk0 (str "E") (str "T") 0 0)).get_entity (str "E") = some ent2 ∧
      ent2.occurrences = ent1.occurrences + 1 ∧
      ent1.text = str "E" ∧ ent2.text = str "E" :=
  C1_idempotent_merge KnowledgeGraph.empty (Entity.mk0 (str "E") (str "T") 0 0) rfl

/-- An entity object whose `occurrences` was already bumped to 2 by a prior
merge (as `EntityExtractor.extract`'s deduplication loop produces) before
being added to a graph. -/
def eDouble : Entity :=
  { text := str "E", entity_type := str "T", start := 0, stop := 0,
    occurrences := 2, mentions := {str "E"} }

/-- Counterexample to C1 as stated: adding the same entity object (with
`occurrences = 2`) twice makes the second call increase the stored count by
2 (from 2 to 4), not by exactly 1. -/
theorem C1_counterexample :
    (((KnowledgeGraph.empty.add_entity eDouble).add_entity eDouble).get_entity
        (str "E")).map Entity.occurrences ≠
      (((KnowledgeGraph.empty.add_entity eDouble).get_entity (str "E")).map
        (fun x => x.occurrences + 1)) := by
  decide

/-! ### Round-trip serialization (C4) -/

theorem add_entity_fresh {g : KnowledgeGraph} {e : Entity}
    (h : ∀ x ∈ g.entities, x.text ≠ e.text) :
    g.add_entity e =
      { g with entities := g.entities ++ [e], nodes := addNode g.nodes e.text } := by
  unfold KnowledgeGraph.add_entity
  rw [if_neg]
  simp only [List.any_eq_true, decide_eq_true_eq, not_exists, not_and]
  exact h

theorem foldl_add_entity_fresh :
    ∀ (es : List Entity) (g : KnowledgeGraph),
      (∀ e ∈ es, ∀ x ∈ g.entities, x.text ≠ e.text) →
      (es.map Entity.text).Nodup →
      (es.foldl (fun g e => g.add_entity e) g).entities = g.entities ++ es ∧
      (es.foldl (fun g e => g.add_entity e) g).relations = g.relations ∧
      (es.foldl (fun g e => g.add_entity e) g).edges = g.edges := by
  intro es
  induction es with
  | nil => intro g _ _; simp
  | cons e es ih =>
      intro g hfresh hnd
      rw [List.map_cons] at hnd
      obtain ⟨hnd1, hnd2⟩ := List.nodup_cons.mp hnd
      simp only [List.foldl_cons]
      rw [add_entity_fresh (fun x hx => hfresh e (List.mem_cons_self e es) x hx)]
      obtain ⟨h1, h2, h3⟩ := ih
        { g with entities := g.entities ++ [e], nodes := addNode g.nodes e.text }
        (by
          intro e2 he2 x hx
          simp only [List.mem_append, List.mem_singleton] at hx
          rcases hx with hx | hx
          · exact hfresh e2 (List.mem_cons_of_mem e he2) x hx
          · subst hx
            intro hcontra
            exact hnd1 (List.mem_map.mpr ⟨e2, he2, hcontra.symm⟩))
        hnd2
      refine ⟨?_, h2, h3⟩
      rw [h1]
      simp

theorem get_entity_isSome_iff {g : KnowledgeGraph} {k : Str} :
    (g.get_entity k).isSome ↔ ∃ x ∈ g.entities, x.text = k := by
  unfold KnowledgeGraph.get_entity
  rw [List.find?_isSome]
  simp

theorem add_relation_entities (g : KnowledgeGraph) (r : Relation) :
    (g.add_relation r).entities = g.entities := rfl

theorem add_relation_relations (g : KnowledgeGraph) (r : Relation) :
    (g.add_relation r).relations = g.relations ++ [r] := rfl

theorem loadRelation_entities (g : KnowledgeGraph) (rd : RelationDict) :
    (loadRelation g rd).entities = g.entities := by
  unfold loadRelation
  cases g.get_entity rd.source <;> cases g.get_entity rd.target <;> rfl

theorem foldl_loadRelation_spec :
    ∀ (rds : List RelationDict) (g : KnowledgeGraph),
      (∀ rd ∈ rds, (g.get_entity rd.source).isSome ∧ (g.get_entity rd.target).isSome) →
      (rds.foldl loadRelation g).relations.length = g.relations.length + rds.length ∧
      (rds.foldl loadRelation g).entities = g.entities := by
  intro rds
  induction rds with
  | nil => intro g _; simp
  | cons rd rds ih =>
      intro g hres
      obtain ⟨hs, ht⟩ := hres rd (List.mem_cons_self rd rds)
      obtain ⟨es, hes⟩ := Option.isSome_iff_exists.mp hs
      obtain ⟨et, het⟩ := Option.isSome_iff_exists.mp ht
      have hstep : loadRelation g rd =
          g.add_relation { source := es, target := et,
                           relation_type := rd.relation_type, sentence := rd.sentence } := by
        unfold loadRelation
        rw [hes, het]
      simp only [List.foldl_cons]
      rw [hstep]
      obtain ⟨h1, h2⟩ := ih (g.add_relation _)
        (by
          intro rd2 hrd2
          have := hres rd2 (List.mem_cons_of_mem rd hrd2)
          simpa [KnowledgeGraph.get_entity, add_relation_entities] using this)
      refine ⟨?_, by rw [h2, add_relation_entities]⟩
      rw [h1]
      simp only [add_relation_relations, List.length_append, List.length_cons,
        List.length_singleton, List.length_nil]
      omega

theorem find?_text_map (f : Entity → Entity) (hf : ∀ x, (f x).text = x.text) (k : Str) :
    ∀ l : List Entity,
      (l.map f).find? (fun x => x.text = k) = (l.find? (fun x => x.text = k)).map f := by
  intro l
  induction l with
  | nil => rfl
  | cons y l ih =>
      simp only [List.map_cons, List.find?_cons, hf y]
      by_cases hy : y.text = k
      · rw [decide_eq_true hy]; rfl
      · rw [decide_eq_false hy]; exact ih

theorem foldl_loadRelation_entities :
    ∀ (rds : List RelationDict) (g : KnowledgeGraph),
      (rds.foldl loadRelation g).entities = g.entities := by
  intro rds
  induction rds with
  | nil => intro g; rfl
  | cons rd rds ih =>
      intro g
      simp only [List.foldl_cons]
      rw [ih, loadRelation_entities]

/-- C4 (amended): for every graph whose entity dict keys are pairwise
distinct (the Python dict invariant) and all of whose relations have both
endpoint texts present in the entity dict, `load (to_dict g)` yields the
same entity count, the same relation count, and the same mentions set for
every key.  (A relation whose endpoint was never added as an entity is
dropped on load, breaking the unconditional claim.) -/
theorem C4_round_trip (g : KnowledgeGraph)
    (hnd : (g.entities.map Entity.text).Nodup)
    (hrel : ∀ r ∈ g.relations,
      (g.get_entity r.source.text).isSome ∧ (g.get_entity r.target.text).isSome) :
    (KnowledgeGraph.load g.to_dict).entities.length = g.entities.length ∧
    (KnowledgeGraph.load g.to_dict).relations.length = g.relations.length ∧
    ∀ k : Str, ((KnowledgeGraph.load g.to_dict).get_entity k).map Entity.mentions =
      (g.get_entity k).map Entity.mentions := by
  have hfold1 : KnowledgeGraph.load g.to_dict =
      (g.relations.map Relation.to_dict).foldl loadRelation
        ((g.entities.map (fun e => entityOfDict (Entity.to_dict e))).foldl
          (fun h e => h.add_entity e) KnowledgeGraph.empty) := by
    simp only [KnowledgeGraph.load, KnowledgeGraph.to_dict, List.foldl_map]
  have htext : (g.entities.map (fun e => entityOfDict (Entity.to_dict e))).map Entity.text =
      g.entities.map Entity.text := by
    rw [List.map_map]
    have hcomp : (Entity.text ∘ fun e => entityOfDict (Entity.to_dict e)) = Entity.text :=
      funext (fun e => rfl)
    rw [hcomp]
  obtain ⟨hE, _, _⟩ := foldl_add_entity_fresh
    (g.entities.map (fun e => entityOfDict (Entity.to_dict e))) KnowledgeGraph.empty
    (by intro e _ x hx; cases hx) (by rw [htext]; exact hnd)
  have hentload : (KnowledgeGraph.load g.to_dict).entities =
      g.entities.map (fun e => entityOfDict (Entity.to_dict e)) := by
    rw [hfold1, foldl_loadRelation_entities, hE]
    simp [KnowledgeGraph.empty]
  have hget : ∀ k : Str, (KnowledgeGraph.load g.to_dict).get_entity k =
      (g.get_entity k).map (fun e => entityOfDict (Entity.to_dict e)) := by
    intro k
    unfold KnowledgeGraph.get_entity
    rw [hentload, find?_text_map (fun e => entityOfDict (Entity.to_dict e)) (fun x => rfl) k]
  refine ⟨by rw [hentload, List.length_map], ?_, ?_⟩
  · have hg1ent :
        ((g.entities.map (fun e => entityOfDict (Entity.to_dict e))).foldl
          (fun h e => h.add_entity e) KnowledgeGraph.empty).entities =
        g.entities.map (fun e => entityOfDict (Entity.to_dict e)) := by
      rw [hE]; simp [KnowledgeGraph.empty]
    obtain ⟨hlen, _⟩ := foldl_loadRelation_spec (g.relations.map Relation.to_dict)
      ((g.entities.map (fun e => entityOfDict (Entity.to_dict e))).foldl
        (fun h e => h.add_entity e) KnowledgeGraph.empty)
      (by
        intro rd hrd
        rw [List.mem_map] at hrd
        obtain ⟨r, hr, rfl⟩ := hrd
        obtain ⟨hs, ht⟩ := hrel r hr
        constructor
        · rw [get_entity_isSome_iff] at hs ⊢
          rw [hg1ent]
          obtain ⟨x, hx, hxt⟩ := hs
          exact ⟨entityOfDict (Entity.to_dict x), List.mem_map.mpr ⟨x, hx, rfl⟩, hxt⟩
        · rw [get_entity_isSome_iff] at ht ⊢
          rw [hg1ent]
          obtain ⟨x, hx, hxt⟩ := ht
          exact ⟨entityOfDict (Entity.to_dict x), List.mem_map.mpr ⟨x, hx, rfl⟩, hxt⟩)
    rw [hfold1, hlen]
    have : ((g.entities.map (fun e => entityOfDict (Entity.to_dict e))).foldl
        (fun h e => h.add_entity e) KnowledgeGraph.empty).relations = [] := by
      obtain ⟨_, hrel2, _⟩ := foldl_add_entity_fresh
        (g.entities.map (fun e => entityOfDict (Entity.to_dict e))) KnowledgeGraph.empty
        (by intro e _ x hx; cases hx) (by rw [htext]; exact hnd)
      rw [hrel2]; rfl
    rw [this]
    simp
  · intro k
    rw [hget k, Option.map_map]
    have hcomp : (Entity.mentions ∘ fun e => entityOfDict (Entity.to_dict e)) =
        Entity.mentions := funext (fun e => rfl)
    rw [hcomp]

/-- A graph holding a relation whose endpoints were never added as entities
(`add_relation` performs no endpoint check). -/
def gBadRel : KnowledgeGraph :=
  KnowledgeGraph.empty.add_relation
    { source := Entity.mk0 (str "A") (str "T") 0 0,
      target := Entity.mk0 (str "B") (str "T") 0 0,
      relation_type := str "r", sentence := str "s" }

/-- Counterexample to C4 as stated: serializing a graph with a relation whose
endpoints are not in the entity dict and loading it back drops the relation,
so the relation count differs (0 vs 1). -/
theorem C4_counterexample :
    ¬ ((KnowledgeGraph.load gBadRel.to_dict).relations.length =
        gBadRel.relations.length) := by
  decide

/-- Witness for C4 on a concrete two-entity one-relation graph. -/
theorem C4_round_trip_witness :
    ((KnowledgeGraph.load (((KnowledgeGraph.empty.add_entity
        (Entity.mk0 (str "A") (str "T") 0 0)).add_entity
        (Entity.mk0 (str "B") (str "T") 0 0)).add_relation
        { source := Entity.mk0 (str "A") (str "T") 0 0,
          target := Entity.mk0 (str "B") (str "T") 0 0,
          relation_type := str "r", sentence := str "s" }).to_dict).entities.length =
      (((KnowledgeGraph.empty.add_entity
        (Entity.mk0 (str "A") (str "T") 0 0)).add_entity
        (Entity.mk0 (str "B") (str "T") 0 0)).add_relation
        { source := Entity.mk0 (str "A") (str "T") 0 0,
          target := Entity.mk0 (str "B") (str "T") 0 0,
          relation_type := str "r", sentence := str "s" }).entities.length) ∧
    ((KnowledgeGraph.load (((KnowledgeGraph.empty.add_entity
        (Entity.mk0 (str "A") (str "T") 0 0)).add_entity
        (Entity.mk0 (str "B") (str "T") 0 0)).add_relation
        { source := Entity.mk0 (str "A") (str "T") 0 0,
          target := Entity.mk0 (str "B") (str "T") 0 0,
          relation_type := str "r", sentence := str "s" }).to_dict).relations.length =
      (((KnowledgeGraph.empty.add_entity
        (Entity.mk0 (str "A") (str "T") 0 0)).add_entity
        (Entity.mk0 (str "B") (str "T") 0 0)).add_relation
        { source := Entity.mk0 (str "A") (str "T") 0 0,
          target := Entity.mk0 (str "B") (str "T") 0 0,
          relation_type := str "r", sentence := str "s" }).relations.length) := by
  have h := C4_round_trip (((KnowledgeGraph.empty.add_entity
      (Entity.mk0 (str "A") (str "T") 0 0)).add_entity
      (Entity.mk0 (str "B") (str "T") 0 0)).add_relation
      { source := Entity.mk0 (str "A") (str "T") 0 0,
        target := Entity.mk0 (str "B") (str "T") 0 0,
        relation_type := str "r", sentence := str "s" })
    (by decide) (by decide)
  exact ⟨h.1, h.2.1⟩

/-- C6: for every graph and keys `s`, `t`, if `s` or `t` is not a node, or no
directed walk from `s` to `t` exists, `get_path` returns the empty list (the
`NodeNotFound` / `NetworkXNoPath` exceptions are caught; the function is
total, so no error escapes). -/
theorem C6_get_path_missing (g : KnowledgeGraph) (s t : Str)
    (h : s ∉ g.nodes ∨ t ∉ g.nodes ∨ ∀ n, ¬ WalkTo g s t n) :
    g.get_path s t = [] := by
  rcases h with h | h | h
  · exact get_path_endpoint_missing (Or.inl h)
  · exact get_path_endpoint_missing (Or.inr h)
  · exact get_path_no_walk h

/-- Witness for C6: a lookup between two absent nodes on the empty graph. -/
theorem C6_get_path_missing_witness :
    KnowledgeGraph.empty.get_path (str "A") (str "B") = [] :=
  C6_get_path_missing KnowledgeGraph.empty (str "A") (str "B") (Or.inl (by decide))

theorem findLeast_start {p : Nat → Bool} {start fuel : Nat} (h : p start = true) :
    findLeast p start fuel = some start := by
  cases fuel <;> simp [findLeast, h]

/-- C9: for every key `k` present as a node, `get_path k k` returns the empty
list — `nx.shortest_path(g, k, k)` yields the single-vertex path `[k]`, whose
step loop emits nothing, indistinguishable from a missing path. -/
theorem C9_self_path (g : KnowledgeGraph) (k : Str) (h : k ∈ g.nodes) :
    g.get_path k k = [] := by
  unfold KnowledgeGraph.get_path shortestPathNodes bfsDist
  rw [if_pos ⟨h, h⟩]
  have h0 : (fun n => decide (k ∈ reach g k n)) 0 = true := by simp [reach]
  rw [findLeast_start h0]
  simp [extract, pathSteps]

/-- Witness for C9 on a one-entity graph. -/
theorem C9_self_path_witness :
    ((KnowledgeGraph.empty.add_entity (Entity.mk0 (str "A") (str "T") 0 0)).get_path
      (str "A") (str "A")) = [] :=
  C9_self_path (KnowledgeGraph.empty.add_entity (Entity.mk0 (str "A") (str "T") 0 0))
    (str "A") (by decide)

/-- C5: (a) in every graph whose edges are exactly the chain
A→B→C→D over four distinct names, `get_path A D` returns exactly the three
steps in order with the correct source, target and relation metadata;
(b) in general a nonempty `get_path` result is the step list (one step per
traversed edge) of a walk from `s` to `t` of minimal edge count. -/
theorem C5_path_correctness :
    (∀ (g : KnowledgeGraph) (A B C D rt1 rt2 rt3 sn1 sn2 sn3 : Str),
      WellFormed g → A ∈ g.nodes → D ∈ g.nodes →
      g.edges = [{ source := A, target := B, relation_type := rt1, sentence := sn1 },
                 { source := B, target := C, relation_type := rt2, sentence := sn2 },
                 { source := C, target := D, relation_type := rt3, sentence := sn3 }] →
      A ≠ B → A ≠ C → A ≠ D → B ≠ C → B ≠ D → C ≠ D →
      g.get_path A D =
        [{ source := A, target := B, relation_type := rt1, sentence := sn1 },
         { source := B, target := C, relation_type := rt2, sentence := sn2 },
         { source := C, target := D, relation_type := rt3, sentence := sn3 }]) ∧
    (∀ (g : KnowledgeGraph) (s t : Str), WellFormed g → g.get_path s t ≠ [] →
      ∃ p, WalkFrom g p s t ∧ g.get_path s t = pathSteps g p ∧
        ∀ n, WalkTo g s t n → p.length ≤ n + 1) := by
  constructor
  · intro g A B C D rt1 rt2 rt3 sn1 sn2 sn3 wf hA hD hedges hAB hAC hAD hBC hBD hCD
    have hE : ∀ u v, hasEdge g u v ↔
        ((u = A ∧ v = B) ∨ (u = B ∧ v = C) ∨ (u = C ∧ v = D)) := by
      intro u v
      unfold hasEdge
      rw [hedges]
      constructor
      · rintro ⟨e, he, hsrc, htgt⟩
        simp only [List.mem_cons, List.mem_singleton, List.not_mem_nil, or_false] at he
        rcases he with rfl | rfl | rfl
        · exact Or.inl ⟨hsrc.symm, htgt.symm⟩
        · exact Or.inr (Or.inl ⟨hsrc.symm, htgt.symm⟩)
        · exact Or.inr (Or.inr ⟨hsrc.symm, htgt.symm⟩)
      · rintro (⟨h1, h2⟩ | ⟨h1, h2⟩ | ⟨h1, h2⟩)
        · exact ⟨{ source := A, target := B, relation_type := rt1, sentence := sn1 },
            by simp, h1.symm, h2.symm⟩
        · exact ⟨{ source := B, target := C, relation_type := rt2, sentence := sn2 },
            by simp, h1.symm, h2.symm⟩
        · exact ⟨{ source := C, target := D, relation_type := rt3, sentence := sn3 },
            by simp, h1.symm, h2.symm⟩
    have e1 : hasEdge g A B := (hE A B).mpr (Or.inl ⟨rfl, rfl⟩)
    have e2 : hasEdge g B C := (hE B C).mpr (Or.inr (Or.inl ⟨rfl, rfl⟩))
    have e3 : hasEdge g C D := (hE C D).mpr (Or.inr (Or.inr ⟨rfl, rfl⟩))
    have hw3 : WalkTo g A D 3 := ((WalkTo.base.step e1).step e2).step e3
    obtain ⟨p, hpw, hpeq, hpmin⟩ := get_path_shortest wf hA hD hw3
    have hlen4 : p.length ≤ 4 := hpmin 3 hw3
    obtain ⟨h1, h2, h3⟩ := hpw
    cases p with
    | nil => simp at h1
    | cons a p1 =>
        simp only [List.head?_cons, Option.some_inj] at h1
        subst h1
        cases p1 with
        | nil =>
            simp only [List.getLast?_singleton, Option.some_inj] at h2
            exact absurd h2 hAD
        | cons b p2 =>
            have hab : hasEdge g a b := (List.chain'_cons.mp h3).1
            have hb : B = b := by
              rcases (hE a b).mp hab with ⟨_, hbb⟩ | ⟨hc, _⟩ | ⟨hc, _⟩
              · exact hbb.symm
              · exact absurd hc hAB
              · exact absurd hc hAC
            subst hb
            have h3b := (List.chain'_cons.mp h3).2
            cases p2 with
            | nil =>
                have : (a :: [B]).getLast? = some B := rfl
                rw [this] at h2
                simp only [Option.some_inj] at h2
                exact absurd h2 hBD
            | cons c p3 =>
                have hbc : hasEdge g B c := (List.chain'_cons.mp h3b).1
                have hc : C = c := by
                  rcases (hE B c).mp hbc with ⟨hc2, _⟩ | ⟨_, hcc⟩ | ⟨hc2, _⟩
                  · exact absurd hc2.symm hAB
                  · exact hcc.symm
                  · exact absurd hc2 hBC
                subst hc
                have h3c := (List.chain'_cons.mp h3b).2
                cases p3 with
                | nil =>
                    have : (a :: B :: [C]).getLast? = some C := rfl
                    rw [this] at h2
                    simp only [Option.some_inj] at h2
                    exact absurd h2 hCD
                | cons d p4 =>
                    have hcd : hasEdge g C d := (List.chain'_cons.mp h3c).1
                    have hd : D = d := by
                      rcases (hE C d).mp hcd with ⟨hc2, _⟩ | ⟨hc2, _⟩ | ⟨_, hdd⟩
                      · exact absurd hc2.symm hAC
                      · exact absurd hc2.symm hBC
                      · exact hdd.symm
                    subst hd
                    cases p4 with
                    | nil =>
                        rw [hpeq]
                        simp only [pathSteps, List.zip, List.tail_cons,
                          List.zipWith_cons_cons, List.zipWith_nil_right, List.map_cons,
                          List.map_nil]
                        unfold stepOf
                        rw [hedges]
                        simp [List.find?_cons, hAB, hBC, Ne.symm hAB, hAC]
                    | cons x p5 =>
                        exfalso
                        simp only [List.length_cons] at hlen4
                        omega
  · intro g s t wf hne
    have hsn : s ∈ g.nodes := by
      by_contra hc
      exact hne (get_path_endpoint_missing (Or.inl hc))
    have htn : t ∈ g.nodes := by
      by_contra hc
      exact hne (get_path_endpoint_missing (Or.inr hc))
    have hw : ∃ n, WalkTo g s t n := by
      by_contra hc
      push_neg at hc
      exact hne (get_path_no_walk hc)
    obtain ⟨n, hw⟩ := hw
    exact get_path_shortest wf hsn htn hw

/-- The concrete A→B→C→D chain graph built through the public operations. -/
def gChainW : KnowledgeGraph :=
  (((((((KnowledgeGraph.empty.add_entity
    (Entity.mk0 (str "A") (str "T") 0 0)).add_entity
    (Entity.mk0 (str "B") (str "T") 0 0)).add_entity
    (Entity.mk0 (str "C") (str "T") 0 0)).add_entity
    (Entity.mk0 (str "D") (str "T") 0 0)).add_relation
    { source := Entity.mk0 (str "A") (str "T") 0 0,
      target := Entity.mk0 (str "B") (str "T") 0 0,
      relation_type := str "r1", sentence := str "s1" }).add_relation
    { source := Entity.mk0 (str "B") (str "T") 0 0,
      target := Entity.mk0 (str "C") (str "T") 0 0,
      relation_type := str "r2", sentence := str "s2" }).add_relation
    { source := Entity.mk0 (str "C") (str "T") 0 0,
      target := Entity.mk0 (str "D") (str "T") 0 0,
      relation_type := str "r3", sentence := str "s3" })

/-- Witness for C5 on the concrete chain. -/
theorem C5_path_correctness_witness :
    gChainW.get_path (str "A") (str "D") =
      [{ source := str "A", target := str "B", relation_type := str "r1", sentence := str "s1" },
       { source := str "B", target := str "C", relation_type := str "r2", sentence := str "s2" },
       { source := str "C", target := str "D", relation_type := str "r3", sentence := str "s3" }] :=
  C5_path_correctness.1 gChainW (str "A") (str "B") (str "C") (str "D")
    (str "r1") (str "r2") (str "r3") (str "s1") (str "s2") (str "s3")
    (by decide) (by decide) (by decide) (by decide)
    (by decide) (by decide) (by decide) (by decide) (by decide) (by decide)

/-! ### Duplicate-pair edge overwrite (C3) -/

theorem find?_map_pair (e : Edge) :
    ∀ l : List Edge,
      (∃ x ∈ l, x.source = e.source ∧ x.target = e.target) →
      (l.map (fun x => if x.source = e.source ∧ x.target = e.target then e else x)).find?
        (fun x => x.source = e.source ∧ x.target = e.target) = some e := by
  intro l
  induction l with
  | nil => rintro ⟨x, hx, _⟩; cases hx
  | cons y l ih =>
      intro hex
      by_cases hy : y.source = e.source ∧ y.target = e.target
      · simp only [List.map_cons, if_pos hy, List.find?_cons]
        simp
      · simp only [List.map_cons, if_neg hy, List.find?_cons]
        rw [decide_eq_false hy]
        refine ih ?_
        obtain ⟨x, hx, hxp⟩ := hex
        rcases List.mem_cons.mp hx with rfl | hx2
        · exact absurd hxp hy
        · exact ⟨x, hx2, hxp⟩

theorem find?_pair_addEdge (g : KnowledgeGraph) (e : Edge) :
    ((addEdge g e).edges.find?
      (fun x => x.source = e.source ∧ x.target = e.target)) = some e := by
  unfold addEdge
  by_cases hany : g.edges.any (fun x => x.source = e.source ∧ x.target = e.target)
  · rw [if_pos hany]
    refine find?_map_pair e g.edges ?_
    simpa using hany
  · rw [if_neg hany]
    rw [List.find?_append]
    have hnone : g.edges.find? (fun x => x.source = e.source ∧ x.target = e.target) = none := by
      rw [List.find?_eq_none]
      intro x hx
      simp only [List.any_eq_true, decide_eq_true_eq, not_exists, not_and] at hany
      intro hc
      rw [decide_eq_true_eq] at hc
      exact hany x hx hc.1 hc.2
    rw [hnone]
    simp

theorem pair_unique_addEdge (g : KnowledgeGraph) (e : Edge) :
    ∀ x ∈ (addEdge g e).edges, x.source = e.source → x.target = e.target → x = e := by
  unfold addEdge
  by_cases hany : g.edges.any (fun x => x.source = e.source ∧ x.target = e.target)
  · rw [if_pos hany]
    intro x hx hs ht
    simp only [List.mem_map] at hx
    obtain ⟨y, hy, hxy⟩ := hx
    by_cases hyp : y.source = e.source ∧ y.target = e.target
    · rw [if_pos hyp] at hxy; exact hxy.symm
    · rw [if_neg hyp] at hxy
      subst hxy
      exact absurd ⟨hs, ht⟩ hyp
  · rw [if_neg hany]
    intro x hx hs ht
    simp only [List.mem_append, List.mem_singleton] at hx
    rcases hx with hx | hx
    · exfalso
      simp only [List.any_eq_true, decide_eq_true_eq, not_exists, not_and] at hany
      exact hany x hx hs ht
    · exact hx

theorem mem_addEdge_self (g : KnowledgeGraph) (e : Edge) : e ∈ (addEdge g e).edges := by
  have := find?_pair_addEdge g e
  exact List.mem_of_find?_eq_some this

theorem mem_get_path_step {g : KnowledgeGraph} {s t : Str} {st : PathStep}
    (h : st ∈ g.get_path s t) : st = stepOf g st.source st.target := by
  unfold KnowledgeGraph.get_path at h
  cases hsp : shortestPathNodes g s t with
  | none => rw [hsp] at h; cases h
  | some p => rw [hsp] at h; exact mem_pathSteps h

theorem mem_addNode (ns : List Str) (t : Str) : t ∈ addNode ns t := by
  unfold addNode
  by_cases h : t ∈ ns
  · rwa [if_pos h]
  · rw [if_neg h]; simp

theorem mem_addNode_of_mem {ns : List Str} {x : Str} (t : Str) (h : x ∈ ns) :
    x ∈ addNode ns t := by
  unfold addNode
  by_cases ht : t ∈ ns
  · rwa [if_pos ht]
  · rw [if_neg ht]; exact List.mem_append_left _ h

theorem wf_addEdge {g : KnowledgeGraph} (wf : WellFormed g) (e : Edge) :
    WellFormed (addEdge g e) := by
  intro x hx
  have hnodes : ∀ y : Str, y ∈ g.nodes → y ∈ (addEdge g e).nodes := by
    intro y hy
    unfold addEdge
    exact mem_addNode_of_mem _ (mem_addNode_of_mem _ hy)
  have hsrc : e.source ∈ (addEdge g e).nodes := by
    unfold addEdge
    exact mem_addNode_of_mem _ (mem_addNode _ _)
  have htgt : e.target ∈ (addEdge g e).nodes := by
    unfold addEdge
    exact mem_addNode _ _
  revert hx
  unfold addEdge
  by_cases hany : g.edges.any (fun x => x.source = e.source ∧ x.target = e.target)
  · rw [if_pos hany]
    intro hx
    simp only [List.mem_map] at hx
    obtain ⟨y, hy, hxy⟩ := hx
    by_cases hyp : y.source = e.source ∧ y.target = e.target
    · rw [if_pos hyp] at hxy
      subst hxy
      exact ⟨hsrc, htgt⟩
    · rw [if_neg hyp] at hxy
      subst hxy
      exact ⟨hnodes _ (wf y hy).1, hnodes _ (wf y hy).2⟩
  · rw [if_neg hany]
    intro hx
    simp only [List.mem_append, List.mem_singleton] at hx
    rcases hx with hx | hx
    · exact ⟨hnodes _ (wf x hx).1, hnodes _ (wf x hx).2⟩
    · subst hx
      exact ⟨hsrc, htgt⟩

theorem wf_add_relation {g : KnowledgeGraph} (wf : WellFormed g) (r : Relation) :
    WellFormed (g.add_relation r) :=
  wf_addEdge (g := { g with relations := g.relations ++ [r] }) wf _

/-- C3: after adding `r1` then `r2` with the same ordered (source, target)
text pair, the relation list holds both in insertion order, while the single
stored directed edge for that pair carries `r2`'s attributes (`r1`'s are
overwritten); `get_relations` reports `r2`'s data for that pair (and contains
such an entry), every `get_path` step traversing the pair reports `r2`'s
data, and for distinct endpoints on a well-formed store `get_path` between
them is exactly that one step. -/
theorem C3_duplicate_pair (g : KnowledgeGraph) (r1 r2 : Relation)
    (hsrc : r2.source.text = r1.source.text) (htgt : r2.target.text = r1.target.text) :
    ((g.add_relation r1).add_relation r2).relations = g.relations ++ [r1, r2] ∧
    (((g.add_relation r1).add_relation r2).edges.find?
        (fun x => x.source = r1.source.text ∧ x.target = r1.target.text) =
      some { source := r1.source.text, target := r1.target.text,
             relation_type := r2.relation_type, sentence := r2.sentence }) ∧
    ((((g.add_relation r1).add_relation r2).get_entity r1.source.text).isSome →
      ({ direction := Direction.outgoing, relation_type := r2.relation_type,
         entity := r1.target.text, sentence := r2.sentence } : RelEntry) ∈
        ((g.add_relation r1).add_relation r2).get_relations r1.source.text) ∧
    (∀ entry ∈ ((g.add_relation r1).add_relation r2).get_relations r1.source.text,
      entry.direction = Direction.outgoing → entry.entity = r1.target.text →
      entry.relation_type = r2.relation_type ∧ entry.sentence = r2.sentence) ∧
    (∀ s t : Str, ∀ st ∈ ((g.add_relation r1).add_relation r2).get_path s t,
      st.source = r1.source.text → st.target = r1.target.text →
      st.relation_type = r2.relation_type ∧ st.sentence = r2.sentence) ∧
    (r1.source.text ≠ r1.target.text → WellFormed g →
      ((g.add_relation r1).add_relation r2).get_path r1.source.text r1.target.text =
        [{ source := r1.source.text, target := r1.target.text,
           relation_type := r2.relation_type, sentence := r2.sentence }]) := by
  have hB : ((g.add_relation r1).add_relation r2).edges.find?
      (fun x => x.source = r1.source.text ∧ x.target = r1.target.text) =
      some { source := r1.source.text, target := r1.target.text,
             relation_type := r2.relation_type, sentence := r2.sentence } := by
    have h0 : ((g.add_relation r1).add_relation r2).edges.find?
        (fun x => x.source = r2.source.text ∧ x.target = r2.target.text) =
        some { source := r2.source.text, target := r2.target.text,
               relation_type := r2.relation_type, sentence := r2.sentence } :=
      find?_pair_addEdge
        { (g.add_relation r1) with relations := (g.add_relation r1).relations ++ [r2] }
        { source := r2.source.text, target := r2.target.text,
          relation_type := r2.relation_type, sentence := r2.sentence }
    rw [hsrc, htgt] at h0
    exact h0
  have hMem := List.mem_of_find?_eq_some hB
  have hUniq : ∀ x ∈ ((g.add_relation r1).add_relation r2).edges,
      x.source = r1.source.text → x.target = r1.target.text →
      x = { source := r1.source.text, target := r1.target.text,
            relation_type := r2.relation_type, sentence := r2.sentence } := by
    have h0 : ∀ x ∈ ((g.add_relation r1).add_relation r2).edges,
        x.source = r2.source.text → x.target = r2.target.text →
        x = { source := r2.source.text, target := r2.target.text,
              relation_type := r2.relation_type, sentence := r2.sentence } :=
      pair_unique_addEdge
        { (g.add_relation r1) with relations := (g.add_relation r1).relations ++ [r2] }
        { source := r2.source.text, target := r2.target.text,
          relation_type := r2.relation_type, sentence := r2.sentence }
    rw [hsrc, htgt] at h0
    exact h0
  refine ⟨by simp [add_relation_relations], hB, ?_, ?_, ?_, ?_⟩
  · intro hS
    obtain ⟨ent, hent⟩ := Option.isSome_iff_exists.mp hS
    have hentt : ent.text = r1.source.text := get_entity_text hent
    unfold KnowledgeGraph.get_relations
    rw [hent]
    apply List.mem_append_left
    apply List.mem_map.mpr
    refine ⟨{ source := r1.source.text, target := r1.target.text,
              relation_type := r2.relation_type, sentence := r2.sentence }, ?_, rfl⟩
    apply List.mem_filter.mpr
    refine ⟨hMem, ?_⟩
    simp [hentt]
  · intro entry hentry hdir hent
    unfold KnowledgeGraph.get_relations at hentry
    cases hget : ((g.add_relation r1).add_relation r2).get_entity r1.source.text with
    | none => rw [hget] at hentry; cases hentry
    | some ent =>
        rw [hget] at hentry
        have hentt : ent.text = r1.source.text := get_entity_text hget
        rcases List.mem_append.mp hentry with h | h
        · simp only [List.mem_map] at h
          obtain ⟨x, hx, hxe⟩ := h
          have hxf := List.mem_filter.mp hx
          have hxs : x.source = r1.source.text := by
            have := hxf.2
            simp only [decide_eq_true_eq] at this
            rw [this, hentt]
          have hxt : x.target = r1.target.text := by
            rw [← hxe] at hent
            exact hent
          have := hUniq x hxf.1 hxs hxt
          subst this
          rw [← hxe]
          exact ⟨rfl, rfl⟩
        · exfalso
          simp only [List.mem_map] at h
          obtain ⟨x, _, hxe⟩ := h
          rw [← hxe] at hdir
          cases hdir
  · intro s t st hst h1 h2
    have hstep := mem_get_path_step hst
    rw [h1, h2] at hstep
    unfold stepOf at hstep
    rw [hB] at hstep
    rw [hstep]
    exact ⟨rfl, rfl⟩
  · intro hne wf
    have wf2 : WellFormed ((g.add_relation r1).add_relation r2) :=
      wf_add_relation (wf_add_relation wf r1) r2
    have hsn : r1.source.text ∈ ((g.add_relation r1).add_relation r2).nodes := by
      have h : r2.source.text ∈ ((g.add_relation r1).add_relation r2).nodes :=
        mem_addNode_of_mem _ (mem_addNode _ _)
      rwa [hsrc] at h
    have htn : r1.target.text ∈ ((g.add_relation r1).add_relation r2).nodes := by
      have h : r2.target.text ∈ ((g.add_relation r1).add_relation r2).nodes :=
        mem_addNode _ _
      rwa [htgt] at h
    have hedge : hasEdge ((g.add_relation r1).add_relation r2)
        r1.source.text r1.target.text :=
      ⟨{ source := r1.source.text, target := r1.target.text,
         relation_type := r2.relation_type, sentence := r2.sentence }, hMem, rfl, rfl⟩
    have hw1 : WalkTo ((g.add_relation r1).add_relation r2)
        r1.source.text r1.target.text 1 := WalkTo.base.step hedge
    obtain ⟨p, hpw, hpeq, hpmin⟩ := get_path_shortest wf2 hsn htn hw1
    have hlen : p.length ≤ 2 := hpmin 1 hw1
    obtain ⟨h1, h2, _⟩ := hpw
    cases p with
    | nil => simp at h1
    | cons a p1 =>
        simp only [List.head?_cons, Option.some_inj] at h1
        subst h1
        cases p1 with
        | nil =>
            simp only [List.getLast?_singleton, Option.some_inj] at h2
            exact absurd h2 hne
        | cons b p2 =>
            cases p2 with
            | nil =>
                have hb : b = r1.target.text := by
                  have hlast : (r1.source.text :: [b]).getLast? = some b := rfl
                  rw [hlast] at h2
                  simpa using h2
                subst hb
                rw [hpeq]
                simp only [pathSteps, List.zip, List.tail_cons, List.zipWith_cons_cons,
                  List.zipWith_nil_right, List.map_cons, List.map_nil]
                unfold stepOf
                rw [hB]
            | cons c p3 =>
                exfalso
                simp only [List.length_cons] at hlen
                omega

def gC3base : KnowledgeGraph :=
  (KnowledgeGraph.empty.add_entity (Entity.mk0 (str "A") (str "T") 0 0)).add_entity
    (Entity.mk0 (str "B") (str "T") 0 0)

def rW1 : Relation :=
  { source := Entity.mk0 (str "A") (str "T") 0 0,
    target := Entity.mk0 (str "B") (str "T") 0 0,
    relation_type := str "r1", sentence := str "s1" }

def rW2 : Relation :=
  { source := Entity.mk0 (str "A") (str "T") 0 0,
    target := Entity.mk0 (str "B") (str "T") 0 0,
    relation_type := str "r2", sentence := str "s2" }

/-- Witness for C3 at a concrete two-entity store with two same-pair
relations. -/
theorem C3_duplicate_pair_witness :
    ((gC3base.add_relation rW1).add_relation rW2).relations =
      gC3base.relations ++ [rW1, rW2] ∧
    ((gC3base.add_relation rW1).add_relation rW2).get_path (str "A") (str "B") =
      [{ source := str "A", target := str "B",
         relation_type := str "r2", sentence := str "s2" }] := by
  have h := C3_duplicate_pair gC3base rW1 rW2 rfl rfl
  exact ⟨h.1, h.2.2.2.2.2 (by decide) (by decide)⟩

/-! ### Cache rehydration (C2) and eviction (C7) -/

/-- C2 (amended): on construction the cache loads the up-to-`maxSize`
most-recently-modified persisted entries into memory **keyed by their
filename stems** (`key = file.stem`), not by the original fingerprints, in
listing order — so the most-recently-modified entry sits at the
least-recently-used front and is the **first** candidate for eviction; a
subsequent `get` of an original fingerprint whose memory lookup misses falls
back to its disk record, returns the value and re-inserts it under the
fingerprint at the most-recently-used end. -/
theorem C2_rehydration {V : Type} (hashF : Str → Nat) (max : Nat)
    (sd : List (Str × V)) :
    (Cache.init max sd).mem = sd.take max ∧
    (∀ c : Cache V, (Cache.prune hashF c).mem =
      c.mem.drop (c.mem.length - c.max_size)) ∧
    (∀ (k : Str) (v : V),
      lookup (Cache.init max sd).mem k = none →
      lookup sd (stem hashF k) = some v →
      (Cache.init max sd).mem.length + 1 ≤ max →
      ((Cache.init max sd).get hashF k).1 = some v ∧
      ((Cache.init max sd).get hashF k).2.mem = sd.take max ++ [(k, v)]) := by
  refine ⟨rfl, ?_, ?_⟩
  · intro c
    unfold Cache.prune
    exact pruneLoop_drop c.mem c.disk
  · intro k v hmiss hdisk hcap
    unfold Cache.get
    rw [hmiss]
    rw [show lookup (Cache.init max sd).disk (stem hashF k) = some v from hdisk]
    dsimp only
    unfold Cache.prune
    dsimp only
    rw [pruneLoop_of_le (by
      simp only [List.length_append, List.length_singleton]
      exact hcap)]
    exact ⟨rfl, rfl⟩

/-- Witness for C2's conditional part: a one-entry disk (fingerprint "aa"
hashed to stem "2" by the length hash), capacity 2. -/
theorem C2_rehydration_witness :
    (Cache.init 2 [(str "2", 5)]).mem = [(str "2", 5)] ∧
    ((Cache.init 2 [(str "2", 5)]).get (fun k => k.length) (str "aa")).1 = some 5 ∧
    ((Cache.init 2 [(str "2", 5)]).get (fun k => k.length) (str "aa")).2.mem =
      [(str "2", 5), (str "aa", 5)] := by
  have h := C2_rehydration (V := Nat) (fun k => k.length) 2 [(str "2", 5)]
  have hc := h.2.2 (str "aa") 5 (by decide) (by decide) (by decide)
  exact ⟨h.1, hc.1, hc.2⟩

/-- Counterexample to C2 as stated: with the length hash, fingerprints "aa"
and "bbb" persist under stems "2" and "3"; after construction ("3" most
recent) the fingerprint "bbb" is **not** a memory key (the stems are), and
upon one further insertion the most-recently-modified entry (stem "3") is
evicted first, with the older stem "2" surviving — the opposite of "hits
memory" and "last to be evicted". -/
theorem C2_counterexample :
    lookup (Cache.init 2 [(str "3", 30), (str "2", 20)]).mem (str "bbb") = none ∧
    ((Cache.init 2 [(str "3", 30), (str "2", 20)]).set (fun k => k.length)
        (str "cccc") 40).mem = [(str "2", 20), (str "cccc", 40)] := by
  decide

/-- C7 (amended): for every capacity `maxSize ≥ 1`, inserting `maxSize + 1`
distinct fingerprints (with distinct derived filenames) into a freshly
constructed empty cache leaves exactly the first-inserted (least recently
accessed) fingerprint absent from memory with its disk mirror deleted, while
the other `maxSize` fingerprints remain in memory and on disk in LRU order;
in general pruning always evicts from the least-recently-used front.  (For
`maxSize = 0` the evicted key's mirror is written back after the prune, so
the unrestricted claim fails.) -/
theorem C7_eviction {V : Type} (hashF : Str → Nat) (max : Nat)
    (front : List (Str × V)) (plast : Str × V)
    (hmax : 1 ≤ max) (hlen : front.length = max)
    (hnd : ((front ++ [plast]).map Prod.fst).Nodup)
    (hstemnd : ((front ++ [plast]).map (fun p => stem hashF p.1)).Nodup) :
    (setMany hashF (Cache.init max []) (front ++ [plast])).mem =
      front.tail ++ [plast] ∧
    (setMany hashF (Cache.init max []) (front ++ [plast])).disk =
      (front.tail ++ [plast]).map (fun p => (stem hashF p.1, p.2)) ∧
    (∀ c : Cache V, (Cache.prune hashF c).mem =
      c.mem.drop (c.mem.length - c.max_size)) := by
  have hprune : ∀ c : Cache V, (Cache.prune hashF c).mem =
      c.mem.drop (c.mem.length - c.max_size) := by
    intro c
    unfold Cache.prune
    exact pruneLoop_drop c.mem c.disk
  rw [List.map_append] at hnd hstemnd
  have hndf : (front.map Prod.fst).Nodup := (List.nodup_append.mp hnd).1
  have hstemf : (front.map (fun p => stem hashF p.1)).Nodup :=
    (List.nodup_append.mp hstemnd).1
  have hkeydisj := (List.nodup_append.mp hnd).2.2
  have hstemdisj := (List.nodup_append.mp hstemnd).2.2
  have hkey : ∀ q ∈ front, q.1 ≠ plast.1 := by
    intro q hq hcontra
    exact hkeydisj (List.mem_map.mpr ⟨q, hq, rfl⟩) (by simp [hcontra])
  have hstemkey : ∀ q ∈ front, stem hashF q.1 ≠ stem hashF plast.1 := by
    intro q hq hcontra
    exact hstemdisj (List.mem_map.mpr ⟨q, hq, rfl⟩) (by simp [hcontra])
  have hinit : Cache.init max ([] : List (Str × V)) =
      { max_size := max, mem := [], disk := [] } := by
    simp [Cache.init]
  have hsplit : setMany hashF (Cache.init max []) (front ++ [plast]) =
      Cache.set hashF (setMany hashF (Cache.init max []) front) plast.1 plast.2 := by
    unfold setMany
    rw [List.foldl_append]
    rfl
  have hc1 : setMany hashF (Cache.init max []) front =
      { max_size := max, mem := front,
        disk := front.map (fun p => (stem hashF p.1, p.2)) } := by
    rw [hinit]
    have h := setMany_fill hashF front { max_size := max, mem := [], disk := [] }
      (by intro p _ q hq; cases hq) hndf (by simp [hlen])
    rw [h, foldl_assocUpdate_fresh hashF front [] (by intro p _ q hq; cases hq) hstemf]
    simp
  cases front with
  | nil =>
      exfalso
      rw [List.length_nil] at hlen
      omega
  | cons f1 ftail =>
      have hlen2 : (ftail ++ [plast]).length = max := by
        simp only [List.length_append, List.length_singleton]
        simp only [List.length_cons] at hlen
        omega
      have hfinal : Cache.set hashF
          { max_size := max, mem := f1 :: ftail,
            disk := (f1 :: ftail).map (fun p => (stem hashF p.1, p.2)) }
          plast.1 plast.2 =
          { max_size := max, mem := ftail ++ [plast],
            disk := (ftail ++ [plast]).map (fun p => (stem hashF p.1, p.2)) } := by
        unfold Cache.set Cache.prune
        dsimp only
        rw [assocUpdate_absent (fun q hq => hkey q hq)]
        rw [show ((f1 :: ftail) ++ [plast] : List (Str × V)) =
          f1 :: (ftail ++ [plast]) from rfl]
        rw [pruneLoop_one hlen2]
        dsimp only
        rw [show ((f1 :: ftail).map (fun p => (stem hashF p.1, p.2))) =
          (stem hashF f1.1, f1.2) :: ftail.map (fun p => (stem hashF p.1, p.2)) from rfl]
        rw [assocRemove_cons_self]
        rw [assocRemove_absent (by
          intro p hp
          rw [List.mem_map] at hp
          obtain ⟨q, hq, rfl⟩ := hp
          have := (List.nodup_cons.mp (by
            rw [show ((f1 :: ftail).map (fun p => stem hashF p.1)) =
              stem hashF f1.1 :: ftail.map (fun p => stem hashF p.1) from rfl] at hstemf
            exact hstemf)).1
          intro hcontra
          exact this (List.mem_map.mpr ⟨q, hq, hcontra⟩))]
        rw [assocUpdate_absent (by
          intro p hp
          rw [List.mem_map] at hp
          obtain ⟨q, hq, rfl⟩ := hp
          exact hstemkey q (List.mem_cons_of_mem f1 hq))]
        rw [List.map_append]
        rfl
      refine ⟨?_, ?_, hprune⟩
      · rw [hsplit, hc1, hfinal]
        rfl
      · rw [hsplit, hc1, hfinal]
        rfl

/-- Witness for C7: capacity 2, fingerprints "a", "bb", "ccc" with the length
hash (stems "1", "2", "3"); after three sets, "a" is gone from memory and
disk, the other two remain in LRU order. -/
theorem C7_eviction_witness :
    (setMany (fun k => k.length) (Cache.init 2 [])
        [(str "a", 1), (str "bb", 2), (str "ccc", 3)]).mem =
      [(str "bb", 2), (str "ccc", 3)] ∧
    (setMany (fun k => k.length) (Cache.init 2 [])
        [(str "a", 1), (str "bb", 2), (str "ccc", 3)]).disk =
      [(str "2", 2), (str "3", 3)] := by
  have h := C7_eviction (V := Nat) (fun k => k.length) 2
    [(str "a", 1), (str "bb", 2)] (str "ccc", 3)
    (by decide) (by decide) (by decide) (by decide)
  exact ⟨h.1, h.2.1⟩

/-- Counterexample to C7 as stated: with `maxSize = 0`, inserting one
fingerprint evicts it from memory, but `set` writes its disk mirror after
pruning, so the mirror file is present, not deleted. -/
theorem C7_counterexample :
    ((Cache.init 0 []).set (fun k => k.length) (str "a") 7).mem = [] ∧
    lookup ((Cache.init 0 []).set (fun k => k.length) (str "a") 7).disk
      (stem (fun k => k.length) (str "a")) = some 7 := by
  decide

/-! ### Query-engine response contract (C8, C10) -/

theorem left_ne_nil_append {a : Str} (b : Str) (ha : a ≠ []) : a ++ b ≠ [] :=
  List.append_ne_nil_of_left_ne_nil ha b

theorem handle_find_shape (g : KnowledgeGraph) (name : Str) :
    (handle_find g name).success = false →
    (handle_find g name).data = none ∧ (handle_find g name).message ≠ [] := by
  unfold handle_find
  cases g.get_entity name with
  | some e => intro h; cases h
  | none =>
      cases g.entities.find? (fun e => lowerStr e.text = lowerStr name) with
      | some e => intro h; cases h
      | none =>
          intro _
          exact ⟨rfl, left_ne_nil_append _ (left_ne_nil_append _ (by decide))⟩

theorem handle_path_shape (g : KnowledgeGraph) (a b : Str) :
    (handle_path g a b).success = false →
    (handle_path g a b).data = none ∧ (handle_path g a b).message ≠ [] := by
  unfold handle_path
  cases g.get_entity a with
  | none =>
      intro _
      exact ⟨rfl, left_ne_nil_append _ (left_ne_nil_append _ (by decide))⟩
  | some ea =>
      cases g.get_entity b with
      | none =>
          intro _
          exact ⟨rfl, left_ne_nil_append _ (left_ne_nil_append _ (by decide))⟩
      | some eb =>
          dsimp only
          by_cases hp : (g.get_path ea.text eb.text).isEmpty
          · rw [if_pos hp]
            intro _
            refine ⟨rfl, ?_⟩
            exact left_ne_nil_append _ (left_ne_nil_append _
              (left_ne_nil_append _ (left_ne_nil_append _ (by decide))))
          · rw [if_neg hp]
            intro h; cases h

theorem handle_related_shape (g : KnowledgeGraph) (name : Str) :
    (handle_related g name).success = false →
    (handle_related g name).data = none ∧ (handle_related g name).message ≠ [] := by
  unfold handle_related
  cases g.get_entity name with
  | none =>
      intro _
      exact ⟨rfl, left_ne_nil_append _ (left_ne_nil_append _ (by decide))⟩
  | some e => intro h; cases h

theorem handle_count_shape (g : KnowledgeGraph) (ty : Str) :
    (handle_count g ty).success = false →
    (handle_count g ty).data = none ∧ (handle_count g ty).message ≠ [] := by
  unfold handle_count
  intro h; cases h

theorem handle_export_shape (err : Option Str) (fn : Str) :
    (handle_export err fn).success = false →
    (handle_export err fn).data = none ∧ (handle_export err fn).message ≠ [] := by
  unfold handle_export
  cases err with
  | none => intro h; cases h
  | some e => intro _; exact ⟨rfl, left_ne_nil_append _ (by decide)⟩

theorem dontUnderstand_shape :
    dontUnderstand.data = none ∧ dontUnderstand.message ≠ [] := by
  refine ⟨rfl, ?_⟩
  unfold dontUnderstand
  exact left_ne_nil_append _ (left_ne_nil_append _ (left_ne_nil_append _ (by decide)))

/-- C8: every query response is the uniform `⟨success, message, data⟩`
structure (enforced by the total return type of `execute_query`, so no
exception escapes); every failure response carries `data = none` and a
nonempty message; and each not-found case — unknown entity in `find`,
missing path source, missing path target, no path, unknown entity in
`related` — yields `success = false` with its descriptive message. -/
theorem C8_response_contract :
    (∀ (g : KnowledgeGraph) (err : Option Str) (q : Str),
      (execute_query g err q).success = false →
      (execute_query g err q).data = none ∧ (execute_query g err q).message ≠ []) ∧
    (∀ (g : KnowledgeGraph) (err : Option Str) (q name : Str),
      findMatch (trim q) = some name →
      g.get_entity name = none →
      g.entities.find? (fun e => lowerStr e.text = lowerStr name) = none →
      execute_query g err q =
        { success := false,
          message := str "Entity " ++ quoted name ++ str " not found.",
          data := none }) ∧
    (∀ (g : KnowledgeGraph) (err : Option Str) (q a b : Str),
      findMatch (trim q) = none → pathMatch (trim q) = some (a, b) →
      g.get_entity a = none →
      execute_query g err q =
        { success := false,
          message := str "Source entity " ++ quoted a ++ str " not found.",
          data := none }) ∧
    (∀ (g : KnowledgeGraph) (err : Option Str) (q a b : Str) (ea : Entity),
      findMatch (trim q) = none → pathMatch (trim q) = some (a, b) →
      g.get_entity a = some ea → g.get_entity b = none →
      execute_query g err q =
        { success := false,
          message := str "Target entity " ++ quoted b ++ str " not found.",
          data := none }) ∧
    (∀ (g : KnowledgeGraph) (err : Option Str) (q a b : Str) (ea eb : Entity),
      findMatch (trim q) = none → pathMatch (trim q) = some (a, b) →
      g.get_entity a = some ea → g.get_entity b = some eb →
      g.get_path ea.text eb.text = [] →
      execute_query g err q =
        { success := false,
          message := str "No path found from " ++ quoted a ++ str " to " ++
            quoted b ++ str ".",
          data := none }) ∧
    (∀ (g : KnowledgeGraph) (err : Option Str) (q name : Str),
      findMatch (trim q) = none → pathMatch (trim q) = none →
      relatedMatch (trim q) = some name →
      g.get_entity name = none →
      execute_query g err q =
        { success := false,
          message := str "Entity " ++ quoted name ++ str " not found.",
          data := none }) := by
  refine ⟨?_, ?_, ?_, ?_, ?_, ?_⟩
  · intro g err q
    simp only [execute_query]
    cases h1 : findMatch (trim q) with
    | some name => exact handle_find_shape g name
    | none =>
        simp only [h1]
        cases h2 : pathMatch (trim q) with
        | some ab => exact handle_path_shape g ab.1 ab.2
        | none =>
            simp only [h2]
            cases h3 : relatedMatch (trim q) with
            | some name => exact handle_related_shape g name
            | none =>
                simp only [h3]
                cases h4 : countMatch (trim q) with
                | some ty => exact handle_count_shape g ty
                | none =>
                    simp only [h4]
                    cases h5 : exportMatch (trim q) with
                    | some fn => exact handle_export_shape err fn
                    | none =>
                        simp only [h5]
                        split
                        · intro h; cases h
                        · split
                          · split
                            · split
                              · intro _; exact dontUnderstand_shape
                              · exact handle_find_shape g _
                            · intro _; exact dontUnderstand_shape
                          · intro _; exact dontUnderstand_shape
  · intro g err q name hfm hexact hci
    simp only [execute_query, hfm]
    unfold handle_find
    rw [hexact, hci]
  · intro g err q a b hfm hpm hexact
    simp only [execute_query, hfm, hpm]
    unfold handle_path
    rw [hexact]
  · intro g err q a b ea hfm hpm hea heb
    simp only [execute_query, hfm, hpm]
    unfold handle_path
    rw [hea, heb]
  · intro g err q a b ea eb hfm hpm hea heb hpath
    simp only [execute_query, hfm, hpm]
    unfold handle_path
    rw [hea, heb]
    dsimp only
    rw [hpath]
    rfl
  · intro g err q name hfm hpm hrm hexact
    simp only [execute_query, hfm, hpm, hrm]
    unfold handle_related
    rw [hexact]

/-- Witness for C8: `find X` on the empty graph is a not-found failure. -/
theorem C8_response_contract_witness :
    execute_query KnowledgeGraph.empty none (str "find X") =
      { success := false,
        message := str "Entity " ++ quoted (str "X") ++ str " not found.",
        data := none } :=
  C8_response_contract.2.1 KnowledgeGraph.empty none (str "find X") (str "X")
    (by decide) (by decide) (by decide)

/-- C10 (amended): if `s` is not itself a stored key but differs only by
case from a stored key `t`, then `related s` resolves by exact text match
only and fails with the not-found message, while `find s` falls back to the
case-insensitive scan and succeeds on the same input. -/
theorem C10_related_exact_only (g : KnowledgeGraph) (err : Option Str)
    (s t : Str) (et : Entity)
    (hrm : relatedMatch (trim (str "related " ++ s)) = some s)
    (hfm1 : findMatch (trim (str "related " ++ s)) = none)
    (hpm1 : pathMatch (trim (str "related " ++ s)) = none)
    (hfm2 : findMatch (trim (str "find " ++ s)) = some s)
    (hexact : g.get_entity s = none)
    (ht : g.get_entity t = some et)
    (hlow : lowerStr s = lowerStr t) :
    execute_query g err (str "related " ++ s) =
      { success := false,
        message := str "Entity " ++ quoted s ++ str " not found.",
        data := none } ∧
    (execute_query g err (str "find " ++ s)).success = true := by
  constructor
  · simp only [execute_query, hfm1, hpm1, hrm]
    unfold handle_related
    rw [hexact]
  · simp only [execute_query, hfm2]
    unfold handle_find
    rw [hexact]
    have hmem : et ∈ g.entities := List.mem_of_find?_eq_some ht
    have hett : et.text = t := get_entity_text ht
    cases hf : g.entities.find? (fun e => lowerStr e.text = lowerStr s) with
    | none =>
        exfalso
        have := List.find?_eq_none.mp hf et hmem
        simp only [decide_eq_true_eq] at this
        exact this (by rw [hett, hlow])
    | some e => rfl

/-- A graph storing both casings "A" and "a" as separate entities. -/
def gBothCases : KnowledgeGraph :=
  (KnowledgeGraph.empty.add_entity (Entity.mk0 (str "A") (str "T") 0 0)).add_entity
    (Entity.mk0 (str "a") (str "T") 0 0)

/-- Counterexample to C10 as stated: when the differently-cased string is
itself a stored key ("A" and "a" both present), `related a` succeeds instead
of returning the claimed not-found failure. -/
theorem C10_counterexample :
    (execute_query gBothCases none (str "related a")).success = true := by
  decide

/-- Witness for C10: "Apple" stored, querying with "APPLE". -/
theorem C10_related_exact_only_witness :
    execute_query
        (KnowledgeGraph.empty.add_entity (Entity.mk0 (str "Apple") (str "T") 0 0))
        none (str "related APPLE") =
      { success := false,
        message := str "Entity " ++ quoted (str "APPLE") ++ str " not found.",
        data := none } ∧
    (execute_query
        (KnowledgeGraph.empty.add_entity (Entity.mk0 (str "Apple") (str "T") 0 0))
        none (str "find APPLE")).success = true :=
  C10_related_exact_only
    (KnowledgeGraph.empty.add_entity (Entity.mk0 (str "Apple") (str "T") 0 0))
    none (str "APPLE") (str "Apple") (Entity.mk0 (str "Apple") (str "T") 0 0)
    (by decide) (by decide) (by decide) (by decide) (by decide) (by decide) (by decide)
